import Mathlib

/-!
Restricted Hartree-Fock with MP2 correction: embedding of `HartreeFock.cpp`

The C++ class `HartreeFock` is embedded as a record of its data members and each
member function as a function from records to records.  `double` arithmetic is
idealised as exact arithmetic in a linearly ordered field `R` (it can be run on
`ℚ`); `int` indices are natural numbers.  Fixed-size Eigen matrices and vectors are
functions of their indices; only the entries below `NUM_ORB` are meaningful.

Things the translation unit uses but does not define are collected in `Env`:
the compile-time sizes `NUM_ORB`, `NUM_OCC`, the C library function `pow` and
Eigen's `SelfAdjointEigenSolver`.
-/

open Finset

/-! ## Loops, matrices -/

/-- A C loop `for (x = 0; x < n; x++) body`, threading the mutated state. -/
def forLoop {σ : Type} (n : Nat) (body : Nat → σ → σ) (s : σ) : σ :=
  (List.range n).foldl (fun acc x => body x acc) s

/-- A square Eigen matrix, read as `M(i,j)`. -/
abbrev Mat (R : Type) := Nat → Nat → R

/-- An Eigen vector or a flat array, read as `v(i)` or `v[i]`. -/
abbrev Vec (R : Type) := Nat → R

/-- The assignment `M(i,j) = v`. -/
def setEntry {R : Type} (M : Mat R) (i j : Nat) (v : R) : Mat R :=
  fun a b => if a = i ∧ b = j then v else M a b

/-- The assignment `v(i) = x`. -/
def setAt {R : Type} (v : Vec R) (i : Nat) (x : R) : Vec R :=
  fun a => if a = i then x else v a

/-- Eigen's product of two `n × n` matrices. -/
def matMul {R : Type} [Semiring R] (n : Nat) (A B : Mat R) : Mat R :=
  fun i j => ∑ k in range n, A i k * B k j

/-- Eigen's `.transpose()`. -/
def transpose {R : Type} (A : Mat R) : Mat R := fun i j => A j i

/-- Eigen's sum of two matrices. -/
def matAdd {R : Type} [Add R] (A B : Mat R) : Mat R := fun i j => A i j + B i j

/-- Modelled from the spec: the macro `INDEX` of `HartreeFock.hpp`, which is not among
the sources.  Packed triangular addressing: for `i ≥ j` the index is `i*(i+1)/2 + j`,
otherwise `i` and `j` are swapped first. -/
def INDEX (i j : Nat) : Nat :=
  if i ≥ j then i * (i + 1) / 2 + j else j * (j + 1) / 2 + i

/-- Modelled from the spec: the helper `setzero` (declared in a header that is not among
the sources) clears every entry of the array it is given. -/
def setzero {R : Type} [Zero R] (_v : Vec R) : Vec R := fun _ => 0

/-- What the translation unit takes from outside: the compile-time orbital counts, the
C library function `pow`, and the eigenvalues (ascending) and eigenvectors returned by
Eigen's `SelfAdjointEigenSolver` for an `n × n` matrix. -/
structure Env (R : Type) where
  NUM_ORB : Nat
  NUM_OCC : Nat
  pow : R → R → R
  eigenvalues : Mat R → Vec R
  eigenvectors : Mat R → Mat R

/-- The data members of class `HartreeFock`. -/
structure HartreeFock (R : Type) where
  enuc : R
  S : Mat R
  T : Mat R
  V : Mat R
  Hcore : Mat R
  SOM : Mat R
  F0 : Mat R
  C0 : Mat R
  D0 : Mat R
  e0 : Mat R
  prev_D0 : Mat R
  FMO : Mat R
  E : Vec R
  TEI : Vec R
  TEI_MO : Vec R
  etot : R
  eelec : R
  prev_etot : R
  delE : R
  rmsD : R
  EMP2 : R
  tol_dens : R
  tol_e : R

section Code

variable {R : Type} [LinearOrderedField R]

/-- The address `ijkl` computed in the innermost loop of `Set_Fock`
(`ij = INDEX(i,j); kl = INDEX(k,l); ijkl = INDEX(ij,kl)`). -/
def Set_Fock_ijkl (i j k l : Nat) : Nat :=
  let ij := INDEX i j
  let kl := INDEX k l
  INDEX ij kl

/-- The address `ikjl` computed in the innermost loop of `Set_Fock`
(`ik = INDEX(i,k); jl = INDEX(j,l); ikjl = INDEX(ik,jl)`). -/
def Set_Fock_ikjl (i j k l : Nat) : Nat :=
  let ik := INDEX i k
  let jl := INDEX j l
  INDEX ik jl

/-- The address `pqrs = INDEX(INDEX(p,q),INDEX(r,s))` of `TEI_Transform_N8`. -/
def TEI_Transform_N8_pqrs (p q r s : Nat) : Nat :=
  INDEX (INDEX p q) (INDEX r s)

/-- `HartreeFock::Set_Fock`. -/
def HartreeFock.Set_Fock (env : Env R) (h : HartreeFock R) : HartreeFock R :=
  { h with
    F0 :=
      forLoop env.NUM_ORB (fun i F =>
        forLoop env.NUM_ORB (fun j F =>
          let F1 := setEntry F i j (h.Hcore i j)
          forLoop env.NUM_ORB (fun k F =>
            forLoop env.NUM_ORB (fun l F =>
              let ijkl := Set_Fock_ijkl i j k l
              let ikjl := Set_Fock_ikjl i j k l
              setEntry F i j (F i j + h.D0 k l * (2 * h.TEI ijkl - h.TEI ikjl))) F) F1) F)
        h.F0 }

/-- The free function `Diagonlize(M, evals, evecs)`: the eigenvectors of `M` are stored
in `evecs`, its eigenvalues on the diagonal of `evals`, whose other entries are
cleared.  The result is the pair `(evals, evecs)`. -/
def Diagonlize (env : Env R) (M : Mat R) (evals : Mat R) : Mat R × Mat R :=
  let evecs := env.eigenvectors M
  let evals_vec := env.eigenvalues M
  let evals1 :=
    forLoop env.NUM_ORB (fun i ev =>
      forLoop env.NUM_ORB (fun j ev =>
        if i = j then setEntry ev i i (evals_vec i) else setEntry ev i j 0) ev) evals
  (evals1, evecs)

/-- The error kinds the specification speaks of. -/
inductive Error where
  | NumericalError
  | NonConvergence
  | DegenerateOrbitalError
  deriving DecidableEq, Repr

/-- `HartreeFock::SymmetricOrth`.  The function has no `throw`, no exit and no test on
the eigenvalues, so it always completes; the outcome type makes that explicit.  The
locals `eval`, `evec` are overwritten by `Diagonlize` before they are read. -/
def HartreeFock.SymmetricOrth (env : Env R) (h : HartreeFock R) :
    Except Error (HartreeFock R) :=
  let d := Diagonlize env h.S (fun _ _ => 0)
  let eval := d.1
  let evec := d.2
  let eval1 := forLoop env.NUM_ORB (fun i ev => setEntry ev i i (env.pow (ev i i) (-0.5))) eval
  Except.ok { h with SOM := matMul env.NUM_ORB (matMul env.NUM_ORB evec eval1) (transpose evec) }

/-- `HartreeFock::Set_InitialFock`. -/
def HartreeFock.Set_InitialFock (env : Env R) (h : HartreeFock R) : HartreeFock R :=
  { h with F0 := matMul env.NUM_ORB (matMul env.NUM_ORB (transpose h.SOM) h.Hcore) h.SOM }

/-- `HartreeFock::Set_DensityMatrix`. -/
def HartreeFock.Set_DensityMatrix (env : Env R) (h : HartreeFock R) : HartreeFock R :=
  let d := Diagonlize env h.F0 h.e0
  let e0 := d.1
  let C0 := matMul env.NUM_ORB h.SOM d.2
  let D0 :=
    forLoop env.NUM_ORB (fun i D =>
      forLoop env.NUM_ORB (fun j D =>
        let M := forLoop env.NUM_OCC (fun m M => M + C0 i m * C0 j m) 0
        setEntry D i j M) D) h.D0
  { h with e0 := e0, C0 := C0, D0 := D0 }

/-- `HartreeFock::Set_Energy`. -/
def HartreeFock.Set_Energy (env : Env R) (h : HartreeFock R) : HartreeFock R :=
  let eelec :=
    forLoop env.NUM_ORB (fun i e =>
      forLoop env.NUM_ORB (fun j e => e + h.D0 i j * (h.Hcore i j + h.F0 i j)) e) 0
  { h with eelec := eelec, etot := eelec + h.enuc }

/-- `HartreeFock::SaveDensity`. -/
def HartreeFock.SaveDensity (env : Env R) (h : HartreeFock R) : HartreeFock R :=
  { h with
    prev_D0 :=
      forLoop env.NUM_ORB (fun i P =>
        forLoop env.NUM_ORB (fun j P => setEntry P i j (h.D0 i j)) P) h.prev_D0 }

/-- `HartreeFock::SaveEnergy`. -/
def HartreeFock.SaveEnergy (h : HartreeFock R) : HartreeFock R :=
  { h with prev_etot := h.etot }

/-- `HartreeFock::EConverg`: the returned flag and the object after the call (the
member `delE` is written). -/
def HartreeFock.EConverg (h : HartreeFock R) : Bool × HartreeFock R :=
  let delE := h.prev_etot - h.etot
  (decide (delE < h.tol_e), { h with delE := delE })

/-- `HartreeFock::DensConverg`: the returned flag and the object after the call (the
member `rmsD` is written). -/
def HartreeFock.DensConverg (env : Env R) (h : HartreeFock R) : Bool × HartreeFock R :=
  let val :=
    forLoop env.NUM_ORB (fun i val =>
      forLoop env.NUM_ORB (fun j val => val + env.pow (h.prev_D0 i j - h.D0 i j) 2) val) 0
  let rmsD := env.pow val 0.5
  (decide (rmsD < h.tol_dens), { h with rmsD := rmsD })

/-- The test `EConverg() && DensConverg()` of the `while` in `Iterate`, with the
short-circuit evaluation of `&&`: `DensConverg` runs only when `EConverg` returned
true. -/
def HartreeFock.Iterate_test (env : Env R) (h : HartreeFock R) : Bool × HartreeFock R :=
  let e := h.EConverg
  if e.1 then e.2.DensConverg env else (false, e.2)

/-- The body of the `while` loop in `Iterate` (printing left out). -/
def HartreeFock.Iterate_body (env : Env R) (h : HartreeFock R) : HartreeFock R :=
  let h1 := h.SaveEnergy
  let h2 := h1.SaveDensity env
  let h3 := h2.Set_Fock env
  let h4 := h3.Set_DensityMatrix env
  h4.Set_Energy env

/-- `HartreeFock::Iterate`, the unbounded `while` loop run with a bound on the number
of evaluations of its test: `none` means the bound was reached before the loop
stopped.  The result carries the iteration counter `it`. -/
def HartreeFock.Iterate_from (env : Env R) :
    Nat → Nat → HartreeFock R → Option (Nat × HartreeFock R)
  | 0, _, _ => none
  | fuel + 1, it, h =>
    let t := h.Iterate_test env
    if !t.1 then HartreeFock.Iterate_from env fuel (it + 1) (t.2.Iterate_body env)
    else some (it, t.2)

/-- `HartreeFock::Iterate`: the loop started with `it = 0`. -/
def HartreeFock.Iterate (env : Env R) (fuel : Nat) (h : HartreeFock R) :
    Option (Nat × HartreeFock R) :=
  HartreeFock.Iterate_from env fuel 0 h

/-- What `READIN::val`, `READIN::SymMatrix` and `READIN::TEI` load from the data files
(the reader is an external collaborator). -/
structure Data (R : Type) where
  enuc : R
  overlap : Mat R
  kinetic : Mat R
  anuc : Mat R
  eri : Vec R

/-- The constructor `HartreeFock::HartreeFock(tol_dens, tol_e)`.  `mem` is the object
before construction (members the constructor does not assign keep whatever the memory
held); an exception raised by `SymmetricOrth` would leave the constructor at that
point. -/
def HartreeFock.new (env : Env R) (data : Data R) (mem : HartreeFock R) (tol_dens tol_e : R) :
    Except Error (HartreeFock R) := do
  let h0 : HartreeFock R :=
    { mem with enuc := data.enuc, S := data.overlap, T := data.kinetic, V := data.anuc,
               TEI := data.eri, tol_dens := tol_dens, tol_e := tol_e }
  let h1 : HartreeFock R := { h0 with Hcore := matAdd h0.T h0.V }
  let h2 ← h1.SymmetricOrth env
  let h3 := h2.Set_InitialFock env
  let h4 := h3.Set_DensityMatrix env
  pure (h4.Set_Energy env)

/-- The term added to `TEI_MO(ijkl)` in the innermost loop of `TEI_Transform_N8`. -/
def TEI_Transform_N8_term (C0 : Mat R) (TEI : Vec R) (i j k l p q r s : Nat) : R :=
  let pqrs := TEI_Transform_N8_pqrs p q r s
  C0 p i * C0 q j * C0 r k * C0 s l * TEI pqrs

/-- The body of the four outer loops of `TEI_Transform_N8` at the tuple `(i,j,k,l)`:
the four inner loops accumulate into `TEI_MO(ijkl)`, then the increment `ijkl++` of the
`l` loop runs.  The state is the array `TEI_MO` with the running counter `ijkl`. -/
def TEI_Transform_N8_body (N : Nat) (C0 : Mat R) (TEI : Vec R) (i j k l : Nat)
    (st : Vec R × Nat) : Vec R × Nat :=
  let ijkl := st.2
  let T :=
    forLoop N (fun p T =>
      forLoop N (fun q T =>
        forLoop N (fun r T =>
          forLoop N (fun s T =>
            setAt T ijkl (T ijkl + TEI_Transform_N8_term C0 TEI i j k l p q r s))
          T) T) T) st.1
  (T, ijkl + 1)

/-- The four outer loops of `HartreeFock::TEI_Transform_N8`
(`i < N`, `j <= i`, `k <= i`, `l <= (i==k ? j : k)`), started after
`setzero(&TEI_MO)` with `ijkl = 0`. -/
def TEI_Transform_N8_loops (N : Nat) (C0 : Mat R) (TEI : Vec R) (start : Vec R × Nat) :
    Vec R × Nat :=
  forLoop N (fun i st =>
    forLoop (i + 1) (fun j st =>
      forLoop (i + 1) (fun k st =>
        forLoop ((if i = k then j else k) + 1) (fun l st =>
          TEI_Transform_N8_body N C0 TEI i j k l st) st) st) st) start

/-- `HartreeFock::TEI_Transform_N8`. -/
def HartreeFock.TEI_Transform_N8 (env : Env R) (h : HartreeFock R) : HartreeFock R :=
  { h with
    TEI_MO := (TEI_Transform_N8_loops env.NUM_ORB h.C0 h.TEI (setzero h.TEI_MO, 0)).1 }

/-- A C loop `for (x = lo; x < hi; x++) body`. -/
def forRange {σ : Type} (lo hi : Nat) (body : Nat → σ → σ) (s : σ) : σ :=
  (List.range' lo (hi - lo)).foldl (fun acc x => body x acc) s

/-- Modelled from the spec: the overload of the helper `setzero` for matrices (declared
in a header that is not among the sources) clears every entry. -/
def setzero_Matrix (_M : Mat R) : Mat R := fun _ _ => 0

/-- `HartreeFock::MOBasisFock`. -/
def HartreeFock.MOBasisFock (env : Env R) (h : HartreeFock R) : HartreeFock R :=
  let h1 : HartreeFock R := { h with FMO := setzero_Matrix h.FMO }
  { h1 with FMO := matMul env.NUM_ORB (matMul env.NUM_ORB (transpose h1.C0) h1.F0) h1.C0 }

/-- `HartreeFock::Set_OrbitalEnergy`. -/
def HartreeFock.Set_OrbitalEnergy (env : Env R) (h : HartreeFock R) : HartreeFock R :=
  { h with E := forLoop env.NUM_ORB (fun i E => setAt E i (h.FMO i i)) h.E }

/-- The address `iajb` of `MP2_Energy`
(`ia = INDEX(i,a); jb = INDEX(j,b); iajb = INDEX(ia,jb)`). -/
def MP2_Energy_iajb (i a j b : Nat) : Nat :=
  let ia := INDEX i a
  let jb := INDEX j b
  INDEX ia jb

/-- The address `ibja` of `MP2_Energy`
(`ja = INDEX(j,a); ib = INDEX(i,b); ibja = INDEX(ib,ja)`). -/
def MP2_Energy_ibja (i a j b : Nat) : Nat :=
  let ja := INDEX j a
  let ib := INDEX i b
  INDEX ib ja

/-- `HartreeFock::MP2_Energy`: the returned value and the object after the call (the
member `EMP2` is the accumulator). -/
def HartreeFock.MP2_Energy (env : Env R) (h : HartreeFock R) : R × HartreeFock R :=
  let EMP2 :=
    forLoop env.NUM_OCC (fun i acc =>
      forRange env.NUM_OCC env.NUM_ORB (fun a acc =>
        forLoop env.NUM_OCC (fun j acc =>
          forRange env.NUM_OCC env.NUM_ORB (fun b acc =>
            let iajb := MP2_Energy_iajb i a j b
            let ibja := MP2_Energy_ibja i a j b
            acc + h.TEI_MO iajb * (2 * h.TEI_MO iajb - h.TEI_MO ibja)
                    / (h.E i + h.E j - h.E a - h.E b)) acc) acc) acc) 0
  (EMP2, { h with EMP2 := EMP2 })

/-- `HartreeFock::MP2_Correction` (printing left out). -/
def HartreeFock.MP2_Correction (env : Env R) (h : HartreeFock R) : HartreeFock R :=
  let h1 := h.MOBasisFock env
  let h2 := h1.Set_OrbitalEnergy env
  let h3 := h2.TEI_Transform_N8 env
  let r := h3.MP2_Energy env
  { r.2 with EMP2 := r.1 }

end Code

/-! ## A two-orbital system on which the code can be run -/

/-- The sizes and the solver of the sample system: two orbitals, one of them occupied,
and the eigensolver for diagonal matrices (eigenvalues read off the diagonal,
eigenvectors the unit vectors).  The function `pow` is supplied by the caller. -/
def sampleEnvOf {R : Type} [Zero R] [One R] (pow : R → R → R) : Env R where
  NUM_ORB := 2
  NUM_OCC := 1
  pow := pow
  eigenvalues := fun M i => M i i
  eigenvectors := fun _ i j => if i = j then 1 else 0

/-- A rational stand-in for `pow`: exact for the exponent `2` and, for the exponents
`0.5` and `-0.5`, on the arguments `1` and `4`. -/
def samplePow (x y : ℚ) : ℚ :=
  if y = 2 then x * x
  else if x = 1 then 1
  else if x = 4 then (if y = 0.5 then 2 else 1 / 2)
  else 0

/-- The sample environment over `ℚ`. -/
def sampleEnv : Env ℚ := sampleEnvOf samplePow

/-- The 2 × 2 matrix with rows `(a, b)` and `(c, d)`. -/
def mat2 {R : Type} [Zero R] (a b c d : R) : Mat R := fun i j =>
  if i = 0 then (if j = 0 then a else if j = 1 then b else 0)
  else if i = 1 then (if j = 0 then c else if j = 1 then d else 0)
  else 0

/-- A sample object. -/
def sampleSystem (R : Type) [LinearOrderedField R] : HartreeFock R where
  enuc := 3
  S := mat2 1 0 0 4
  T := mat2 1 0 0 1
  V := mat2 0 (1 / 2) (1 / 2) 1
  Hcore := mat2 1 (1 / 2) (1 / 2) 2
  SOM := mat2 1 0 0 (1 / 2)
  F0 := mat2 5 7 7 9
  C0 := mat2 1 2 3 4
  D0 := mat2 1 2 2 3
  e0 := fun _ _ => 0
  prev_D0 := mat2 1 2 2 7
  FMO := fun _ _ => 0
  E := fun _ => 0
  TEI := fun a => (a : R) + 1
  TEI_MO := fun _ => 11
  etot := -70
  eelec := 13
  prev_etot := -75
  delE := 0
  rmsD := 0
  EMP2 := 0
  tol_dens := 1 / 1000
  tol_e := 1 / 1000000

/-- The sample object over `ℚ`. -/
def sampleHF : HartreeFock ℚ := sampleSystem ℚ

/-- The sample object with identity MO coefficients; its array `TEI` is the
two-orbital tensor with the six entries `1, 2, 3, 4, 5, 6`. -/
def identityHF : HartreeFock ℚ := { sampleHF with C0 := mat2 1 0 0 1 }

/-- A sample object whose overlap matrix `diag(0, 1)` has the eigenvalue `0`. -/
def singularHF : HartreeFock ℚ := { sampleHF with S := mat2 0 0 0 1 }

/-- The files of the sample system with the singular overlap matrix `diag(0, 1)`. -/
def singularData : Data ℚ where
  enuc := 3
  overlap := mat2 0 0 0 1
  kinetic := mat2 1 0 0 1
  anuc := mat2 0 (1 / 2) (1 / 2) 1
  eri := fun a => (a : ℚ) + 1

/-- The tuples `(i,j,k,l)` the loops of `TEI_Transform_N8` visit for fixed `i`, `j`, in
the order of the visit. -/
def N8_row (i j : Nat) : List (Nat × Nat × Nat × Nat) :=
  (List.range (i + 1)).flatMap (fun k =>
    (List.range ((if i = k then j else k) + 1)).map (fun l => (i, j, k, l)))

/-- All tuples `(i,j,k,l)` the loops of `TEI_Transform_N8` visit, in the order of the
visit. -/
def N8_tuples (N : Nat) : List (Nat × Nat × Nat × Nat) :=
  (List.range N).flatMap (fun i => (List.range (i + 1)).flatMap (fun j => N8_row i j))

/-- The compressed address `INDEX(INDEX(i,j),INDEX(k,l))` of a tuple. -/
def N8_address (t : Nat × Nat × Nat × Nat) : Nat :=
  INDEX (INDEX t.1 t.2.1) (INDEX t.2.2.1 t.2.2.2)

/-- The transformed integral of the specification:
`Σ_{p,q,r,s<N} C(p,i) C(q,j) C(r,k) C(s,l) TEI[INDEX(INDEX(p,q),INDEX(r,s))]`. -/
def N8_sum {R : Type} [Semiring R] (N : Nat) (C0 : Mat R) (TEI : Vec R)
    (t : Nat × Nat × Nat × Nat) : R :=
  ∑ p in range N, ∑ q in range N, ∑ r in range N, ∑ s in range N,
    C0 p t.1 * C0 q t.2.1 * C0 r t.2.2.1 * C0 s t.2.2.2
      * TEI (INDEX (INDEX p q) (INDEX r s))

/-- The `n × n` Mathlib matrix holding the meaningful entries of `A`. -/
def toMatrix {R : Type} (n : Nat) (A : Mat R) : Matrix (Fin n) (Fin n) R :=
  fun i j => A i.val j.val

/-- The loaded and derived integral data (`S`, `T`, `V`, `Hcore`, `SOM`, `TEI`, `enuc`)
of the object `h1` are those of `h`. -/
def SameIntegrals {R : Type} (h h1 : HartreeFock R) : Prop :=
  h1.S = h.S ∧ h1.T = h.T ∧ h1.V = h.V ∧ h1.Hcore = h.Hcore ∧ h1.SOM = h.SOM ∧
    h1.TEI = h.TEI ∧ h1.enuc = h.enuc

/-- The files of the 2 × 2 scenario of the specification: `S` the identity,
`Hcore = T + V = diag(1, 2)`, all two-electron integrals zero. -/
def scenarioData : Data ℚ where
  enuc := 3
  overlap := mat2 1 0 0 1
  kinetic := mat2 1 0 0 1
  anuc := mat2 0 0 0 1
  eri := fun _ => 0

/-- An object of the 2 × 2 scenario after convergence, with the orbital energies
`E = (1, 2)`. -/
def scenarioHF : HartreeFock ℚ :=
  { sampleHF with
    S := mat2 1 0 0 1, T := mat2 1 0 0 1, V := mat2 0 0 0 1, Hcore := mat2 1 0 0 2,
    SOM := mat2 1 0 0 1, F0 := mat2 1 0 0 2, C0 := mat2 1 0 0 1, D0 := mat2 1 0 0 0,
    prev_D0 := mat2 1 0 0 0, TEI := fun _ => 0, E := fun i => (i : ℚ) + 1,
    etot := 5, prev_etot := 5, eelec := 2 }

/-- The sample environment with the two eigenvector columns exchanged: the solver
returns the unit vectors in the order `e1, e0`. -/
def swappedEnv : Env ℚ :=
  { sampleEnv with eigenvectors := fun _ i j => if i + j = 1 then 1 else 0 }

/-- An object whose Fock matrix is the identity, so that both eigenvalues are `1`;
`SOM` is the identity and `Hcore = diag(1, 2)`. -/
def degenerateHF : HartreeFock ℚ :=
  { sampleHF with
    Hcore := mat2 1 0 0 2, SOM := mat2 1 0 0 1, F0 := mat2 1 0 0 1 }

/-- The sample environment with both orbitals occupied. -/
def fullEnv : Env ℚ := { sampleEnv with NUM_OCC := 2 }

/-- The environment with exchanged eigenvector columns and both orbitals occupied. -/
def fullSwappedEnv : Env ℚ := { swappedEnv with NUM_OCC := 2 }

/-- The pair `lam`, `L` is what a symmetric eigensolver returns for the leading
`n × n` block of `M`: every column `m` of `L` is an eigenvector for `lam m`, the columns
are orthonormal, and the eigenvalues ascend. -/
def IsEigensolution {R : Type} [LinearOrderedField R] (n : Nat) (M : Mat R) (lam : Vec R)
    (L : Mat R) : Prop :=
  (∀ i m, i < n → m < n → ∑ k in range n, M i k * L k m = lam m * L i m) ∧
  (∀ m p, m < n → p < n → ∑ k in range n, L k m * L k p = if m = p then 1 else 0) ∧
  (∀ m p, m ≤ p → p < n → lam m ≤ lam p)

/-- The state of the 2 × 2 scenario of the specification between iteration steps:
`Hcore = diag(1, 2)`, zero two-electron integrals, `SOM` the identity, the density
`diag(1, 0)` of the lowest orbital, total energy `2 + enuc`, positive tolerances. -/
def Scenario {R : Type} [LinearOrderedField R] (h : HartreeFock R) : Prop :=
  (∀ i j, i < 2 → j < 2 → h.Hcore i j = mat2 1 0 0 2 i j) ∧
  (∀ a, a < 6 → h.TEI a = 0) ∧
  (∀ i j, i < 2 → j < 2 → h.SOM i j = mat2 1 0 0 1 i j) ∧
  (∀ i j, i < 2 → j < 2 → h.D0 i j = mat2 1 0 0 0 i j) ∧
  h.etot = 2 + h.enuc ∧ 0 < h.tol_e ∧ 0 < h.tol_dens

/-! ## Loop lemmas -/

theorem forLoop_zero {σ : Type} (body : Nat → σ → σ) (s : σ) : forLoop 0 body s = s := rfl

theorem forLoop_succ {σ : Type} (n : Nat) (body : Nat → σ → σ) (s : σ) :
    forLoop (n + 1) body s = body n (forLoop n body s) := by
  simp [forLoop, List.range_succ, List.foldl_append]

theorem forLoop_congr {σ : Type} (n : Nat) (f g : Nat → σ → σ) (s : σ)
    (hfg : ∀ x, x < n → ∀ t, f x t = g x t) : forLoop n f s = forLoop n g s := by
  induction n with
  | zero => rfl
  | succ n ih =>
    rw [forLoop_succ, forLoop_succ, ih (fun x hx t => hfg x (Nat.lt_succ_of_lt hx) t),
      hfg n (Nat.lt_succ_self n)]

theorem setEntry_same {R : Type} (M : Mat R) (i j : Nat) (v : R) : setEntry M i j v i j = v := by
  simp [setEntry]

theorem setEntry_setEntry {R : Type} (M : Mat R) (i j : Nat) (v w : R) :
    setEntry (setEntry M i j v) i j w = setEntry M i j w := by
  funext a b
  by_cases hab : a = i ∧ b = j <;> simp [setEntry, hab]

/-- A loop that adds `f x` to the single entry `(i,j)` adds the sum of the `f x`. -/
theorem forLoop_accum {R : Type} [Ring R] (i j : Nat) (f : Nat → R) (g : Nat → Mat R → Mat R)
    (hg : ∀ x M, g x M = setEntry M i j (M i j + f x)) (n : Nat) (M : Mat R) :
    forLoop n g M = setEntry M i j (M i j + ∑ x in range n, f x) := by
  induction n with
  | zero =>
    funext a b
    by_cases hab : a = i ∧ b = j
    · obtain ⟨rfl, rfl⟩ := hab
      simp [forLoop_zero, setEntry]
    · simp [forLoop_zero, setEntry, hab]
  | succ n ih =>
    rw [forLoop_succ, ih, hg, setEntry_setEntry, setEntry_same, sum_range_succ, add_assoc]

/-- A loop over `j` that assigns `v j` to entry `(i,j)` fills the first `n` entries of
row `i`. -/
theorem forLoop_row {R : Type} (i : Nat) (v : Nat → R) (g : Nat → Mat R → Mat R)
    (hg : ∀ j M, g j M = setEntry M i j (v j)) (n : Nat) (M : Mat R) :
    forLoop n g M = fun a b => if a = i ∧ b < n then v b else M a b := by
  induction n with
  | zero => funext a b; simp [forLoop_zero]
  | succ n ih =>
    rw [forLoop_succ, ih, hg]
    funext a b
    by_cases ha : a = i
    · subst ha
      rcases Nat.lt_trichotomy b n with hb | hb | hb
      · have h1 : b ≠ n := Nat.ne_of_lt hb
        have h2 : b < n + 1 := Nat.lt_succ_of_lt hb
        simp [setEntry, h1, h2, hb]
      · subst hb
        simp [setEntry]
      · have h1 : b ≠ n := Nat.ne_of_gt hb
        have h2 : ¬ b < n + 1 := by omega
        have h3 : ¬ b < n := by omega
        simp [setEntry, h1, h2, h3]
    · simp [setEntry, ha]

/-- A loop over `i` whose step fills the first `n` entries of row `i` fills the leading
`m × n` block. -/
theorem forLoop_block {R : Type} (n : Nat) (v : Nat → Nat → R) (g : Nat → Mat R → Mat R)
    (hg : ∀ i M, g i M = fun a b => if a = i ∧ b < n then v i b else M a b)
    (m : Nat) (M : Mat R) :
    forLoop m g M = fun a b => if a < m ∧ b < n then v a b else M a b := by
  induction m with
  | zero => funext a b; simp [forLoop_zero]
  | succ m ih =>
    rw [forLoop_succ, ih, hg]
    funext a b
    by_cases hb : b < n
    · rcases Nat.lt_trichotomy a m with ha | ha | ha
      · have h1 : a ≠ m := Nat.ne_of_lt ha
        have h2 : a < m + 1 := Nat.lt_succ_of_lt ha
        simp [h1, h2, ha, hb]
      · subst ha
        simp [hb]
      · have h1 : a ≠ m := Nat.ne_of_gt ha
        have h2 : ¬ a < m + 1 := by omega
        have h3 : ¬ a < m := by omega
        simp [h1, h2, h3]
    · simp [hb]

/-- The nested loops `for i < m, for j < n: M(i,j) = v i j`. -/
theorem forLoop_fill {R : Type} (m n : Nat) (v : Nat → Nat → R)
    (g : Nat → Nat → Mat R → Mat R) (hg : ∀ i j M, g i j M = setEntry M i j (v i j))
    (M : Mat R) :
    forLoop m (fun i F => forLoop n (fun j F => g i j F) F) M =
      fun a b => if a < m ∧ b < n then v a b else M a b := by
  apply forLoop_block n v
  intro i F
  exact forLoop_row i (v i) (fun j F => g i j F) (fun j F => hg i j F) n F

/-! ## The pair index -/

theorem INDEX_comm (i j : Nat) : INDEX i j = INDEX j i := by
  unfold INDEX
  rcases Nat.lt_trichotomy i j with hij | hij | hij
  · rw [if_neg (by omega), if_pos (by omega)]
  · subst hij; rfl
  · rw [if_pos (by omega), if_neg (by omega)]

theorem INDEX_of_ge (i j : Nat) (hij : j ≤ i) : INDEX i j = i * (i + 1) / 2 + j := by
  unfold INDEX
  rw [if_pos hij]

/-- C1: the pair index is symmetric, `INDEX(i,j) = INDEX(j,i)`, equals `i*(i+1)/2 + j`
when `i ≥ j`, and every four-index address formed in `Set_Fock`, `MP2_Energy` and
`TEI_Transform_N8` is the same rule applied to two pair indices: it is
`INDEX(INDEX(a,b),INDEX(c,d))`, hence `P*(P+1)/2 + Q` for the pair indices `P ≥ Q`. -/
theorem C1_INDEX_packing (i j k l : Nat) :
    INDEX i j = INDEX j i ∧
    (j ≤ i → INDEX i j = i * (i + 1) / 2 + j) ∧
    Set_Fock_ijkl i j k l = INDEX (INDEX i j) (INDEX k l) ∧
    Set_Fock_ikjl i j k l = INDEX (INDEX i k) (INDEX j l) ∧
    MP2_Energy_iajb i j k l = INDEX (INDEX i j) (INDEX k l) ∧
    MP2_Energy_ibja i j k l = INDEX (INDEX i l) (INDEX k j) ∧
    TEI_Transform_N8_pqrs i j k l = INDEX (INDEX i j) (INDEX k l) ∧
    (INDEX k l ≤ INDEX i j →
      TEI_Transform_N8_pqrs i j k l = INDEX i j * (INDEX i j + 1) / 2 + INDEX k l) ∧
    TEI_Transform_N8_pqrs i j k l = TEI_Transform_N8_pqrs k l i j :=
  ⟨INDEX_comm i j, INDEX_of_ge i j, rfl, rfl, rfl, rfl, rfl,
    fun hle => INDEX_of_ge _ _ hle, INDEX_comm _ _⟩

/-- Witness of C1 at the orbital indices `3, 1, 2, 0`. -/
theorem C1_INDEX_packing_witness :
    INDEX 3 1 = INDEX 1 3 ∧ INDEX 3 1 = 3 * (3 + 1) / 2 + 1 ∧
    TEI_Transform_N8_pqrs 3 1 2 0 = INDEX 3 1 * (INDEX 3 1 + 1) / 2 + INDEX 2 0 :=
  ⟨(C1_INDEX_packing 3 1 2 0).1, (C1_INDEX_packing 3 1 2 0).2.1 (by decide),
    (C1_INDEX_packing 3 1 2 0).2.2.2.2.2.2.2.1 (by decide)⟩

/-! ## The Fock build -/

/-- The summand of the Fock build. -/
theorem Set_Fock_entry {R : Type} [LinearOrderedField R] (env : Env R) (h : HartreeFock R) :
    (h.Set_Fock env).F0 = fun a b =>
      if a < env.NUM_ORB ∧ b < env.NUM_ORB then
        h.Hcore a b + ∑ k in range env.NUM_ORB, ∑ l in range env.NUM_ORB,
          h.D0 k l * (2 * h.TEI (INDEX (INDEX a b) (INDEX k l))
            - h.TEI (INDEX (INDEX a k) (INDEX b l)))
      else h.F0 a b := by
  show forLoop env.NUM_ORB _ h.F0 = _
  apply forLoop_fill env.NUM_ORB env.NUM_ORB
    (fun a b => h.Hcore a b + ∑ k in range env.NUM_ORB, ∑ l in range env.NUM_ORB,
          h.D0 k l * (2 * h.TEI (INDEX (INDEX a b) (INDEX k l))
            - h.TEI (INDEX (INDEX a k) (INDEX b l))))
  intro i j M
  show forLoop env.NUM_ORB _ (setEntry M i j (h.Hcore i j)) = _
  rw [forLoop_accum i j
    (fun k => ∑ l in range env.NUM_ORB,
      h.D0 k l * (2 * h.TEI (INDEX (INDEX i j) (INDEX k l))
        - h.TEI (INDEX (INDEX i k) (INDEX j l))))]
  · rw [setEntry_setEntry, setEntry_same]
  · intro k F
    exact forLoop_accum i j
      (fun l => h.D0 k l * (2 * h.TEI (INDEX (INDEX i j) (INDEX k l))
        - h.TEI (INDEX (INDEX i k) (INDEX j l)))) _ (fun l F => rfl) env.NUM_ORB F

/-- C2: after `Set_Fock`, for all `i, j < N`,
`F0(i,j) = Hcore(i,j) + Σ_{k,l<N} D0(k,l) * (2*TEI[INDEX(INDEX(i,j),INDEX(k,l))]
 - TEI[INDEX(INDEX(i,k),INDEX(j,l))])`, and the entry is the same whatever the
previous contents `Fprev` of `F0` were. -/
theorem C2_Set_Fock_formula {R : Type} [LinearOrderedField R] (env : Env R)
    (h : HartreeFock R) (i j : Nat) (hi : i < env.NUM_ORB) (hj : j < env.NUM_ORB) :
    (h.Set_Fock env).F0 i j =
      h.Hcore i j + ∑ k in range env.NUM_ORB, ∑ l in range env.NUM_ORB,
        h.D0 k l * (2 * h.TEI (INDEX (INDEX i j) (INDEX k l))
          - h.TEI (INDEX (INDEX i k) (INDEX j l))) ∧
    ∀ Fprev : Mat R,
      (HartreeFock.Set_Fock env { h with F0 := Fprev }).F0 i j = (h.Set_Fock env).F0 i j := by
  refine ⟨?_, fun Fprev => ?_⟩
  · rw [Set_Fock_entry]
    simp only [hi, hj, and_self, if_true]
  · rw [Set_Fock_entry, Set_Fock_entry]
    simp only [hi, hj, and_self, if_true]

/-- Witness of C2: the entry `F0(0,1)` of the sample system. -/
theorem C2_Set_Fock_formula_witness :
    (sampleHF.Set_Fock sampleEnv).F0 0 1 = 55 / 2 := by
  rw [(C2_Set_Fock_formula sampleEnv sampleHF 0 1 (by decide) (by decide)).1]
  simp [sampleEnv, sampleEnvOf, sampleHF, sampleSystem, mat2, INDEX, sum_range_succ]
  norm_num

/-! ## Density matrix and energy -/

/-- A loop that adds `f x` to an accumulator adds the sum of the `f x`. -/
theorem forLoop_sum {R : Type} [Ring R] (f : Nat → R) (g : Nat → R → R)
    (hg : ∀ x a, g x a = a + f x) (n : Nat) (a : R) :
    forLoop n g a = a + ∑ x in range n, f x := by
  induction n with
  | zero => simp [forLoop_zero]
  | succ n ih => rw [forLoop_succ, ih, hg, sum_range_succ, add_assoc]

theorem Set_DensityMatrix_D0 {R : Type} [LinearOrderedField R] (env : Env R)
    (h : HartreeFock R) :
    (h.Set_DensityMatrix env).D0 = fun a b =>
      if a < env.NUM_ORB ∧ b < env.NUM_ORB then
        ∑ m in range env.NUM_OCC,
          (h.Set_DensityMatrix env).C0 a m * (h.Set_DensityMatrix env).C0 b m
      else h.D0 a b := by
  show forLoop env.NUM_ORB _ h.D0 = _
  apply forLoop_fill env.NUM_ORB env.NUM_ORB
    (fun a b => ∑ m in range env.NUM_OCC,
      (h.Set_DensityMatrix env).C0 a m * (h.Set_DensityMatrix env).C0 b m)
  intro i j M
  show setEntry M i j (forLoop env.NUM_OCC _ 0) = _
  exact congrArg (setEntry M i j) ((forLoop_sum (fun m =>
    (h.Set_DensityMatrix env).C0 i m * (h.Set_DensityMatrix env).C0 j m) _
    (fun m a => rfl) env.NUM_OCC 0).trans (zero_add _))

/-- C3: `Set_DensityMatrix` stores `C0 = SOM * eigenvectors(F0)` and, for all
`i, j < N`, the density `D0(i,j) = Σ_{m < N_occ} C0(i,m) * C0(j,m)` of that `C0`. -/
theorem C3_Set_DensityMatrix_outer_product {R : Type} [LinearOrderedField R] (env : Env R)
    (h : HartreeFock R) (i j : Nat) (hi : i < env.NUM_ORB) (hj : j < env.NUM_ORB) :
    (h.Set_DensityMatrix env).C0 = matMul env.NUM_ORB h.SOM (env.eigenvectors h.F0) ∧
    (h.Set_DensityMatrix env).D0 i j =
      ∑ m in range env.NUM_OCC,
        (h.Set_DensityMatrix env).C0 i m * (h.Set_DensityMatrix env).C0 j m := by
  refine ⟨rfl, ?_⟩
  rw [Set_DensityMatrix_D0]
  simp only [hi, hj, and_self, if_true]

/-- Witness of C3: the entry `D0(0,0)` of the sample system. -/
theorem C3_Set_DensityMatrix_outer_product_witness :
    (sampleHF.Set_DensityMatrix sampleEnv).D0 0 0 = 1 := by
  rw [(C3_Set_DensityMatrix_outer_product sampleEnv sampleHF 0 0 (by decide) (by decide)).2,
    (C3_Set_DensityMatrix_outer_product sampleEnv sampleHF 0 0 (by decide) (by decide)).1]
  simp [sampleEnv, sampleEnvOf, sampleHF, sampleSystem, mat2, matMul, sum_range_succ]

theorem Set_Energy_eelec {R : Type} [LinearOrderedField R] (env : Env R) (h : HartreeFock R) :
    (h.Set_Energy env).eelec =
      ∑ i in range env.NUM_ORB, ∑ j in range env.NUM_ORB,
        h.D0 i j * (h.Hcore i j + h.F0 i j) := by
  show forLoop env.NUM_ORB _ 0 = _
  rw [forLoop_sum (fun i => ∑ j in range env.NUM_ORB, h.D0 i j * (h.Hcore i j + h.F0 i j)),
    zero_add]
  intro i a
  exact forLoop_sum (fun j => h.D0 i j * (h.Hcore i j + h.F0 i j)) _ (fun j a => rfl) _ a

/-- C4: after `Set_Energy`, `eelec = Σ_{i,j<N} D0(i,j) * (Hcore(i,j) + F0(i,j))` and
`etot = eelec + enuc`; the matrices are not modified, and the previous value `e` of
`eelec` does not enter the result. -/
theorem C4_Set_Energy_formula {R : Type} [LinearOrderedField R] (env : Env R)
    (h : HartreeFock R) :
    (h.Set_Energy env).eelec =
      ∑ i in range env.NUM_ORB, ∑ j in range env.NUM_ORB,
        (h.Set_Energy env).D0 i j * ((h.Set_Energy env).Hcore i j + (h.Set_Energy env).F0 i j) ∧
    (h.Set_Energy env).etot = (h.Set_Energy env).eelec + (h.Set_Energy env).enuc ∧
    ((h.Set_Energy env).D0 = h.D0 ∧ (h.Set_Energy env).Hcore = h.Hcore ∧
      (h.Set_Energy env).F0 = h.F0 ∧ (h.Set_Energy env).enuc = h.enuc) ∧
    ∀ e : R, (HartreeFock.Set_Energy env { h with eelec := e }).eelec = (h.Set_Energy env).eelec ∧
      (HartreeFock.Set_Energy env { h with eelec := e }).etot = (h.Set_Energy env).etot :=
  ⟨Set_Energy_eelec env h, rfl, ⟨rfl, rfl, rfl, rfl⟩, fun _ => ⟨rfl, rfl⟩⟩

/-! ## Convergence tests -/

/-- What `EConverg` computes: the signed difference `prev_etot - etot` is compared with
the tolerance, and stored in `delE`. -/
theorem EConverg_signed {R : Type} [LinearOrderedField R] (h : HartreeFock R) :
    (h.EConverg.1 = true ↔ h.prev_etot - h.etot < h.tol_e) ∧
    h.EConverg.2 = { h with delE := h.prev_etot - h.etot } := by
  simp [HartreeFock.EConverg]

/-- C5 at a failing input: with `prev_etot = -75`, `etot = -70` and `tol_e = 10^-6` the
energy rose by `5`, far more than the tolerance, and `EConverg` returns true. -/
theorem C5_EConverg_energy_increase :
    sampleHF.prev_etot = -75 ∧ sampleHF.etot = -70 ∧ sampleHF.tol_e = 1 / 1000000 ∧
    sampleHF.EConverg.1 = true ∧
    ¬ (|sampleHF.prev_etot - sampleHF.etot| < sampleHF.tol_e) := by
  refine ⟨rfl, rfl, rfl, ?_, ?_⟩
  · simp [HartreeFock.EConverg, sampleHF, sampleSystem]
    norm_num
  · simp [sampleHF, sampleSystem]
    norm_num

/-- The value accumulated by `DensConverg` before the square root is taken. -/
theorem DensConverg_rmsD {R : Type} [LinearOrderedField R] (env : Env R) (h : HartreeFock R)
    (hsq : ∀ x : R, env.pow x 2 = x * x) :
    (h.DensConverg env).2.rmsD =
      env.pow (∑ i in range env.NUM_ORB, ∑ j in range env.NUM_ORB,
        (h.prev_D0 i j - h.D0 i j) ^ 2) 0.5 ∧
    ((h.DensConverg env).1 = true ↔ (h.DensConverg env).2.rmsD < h.tol_dens) := by
  constructor
  · show env.pow (forLoop env.NUM_ORB _ 0) 0.5 = _
    congr 1
    rw [forLoop_sum (fun i => ∑ j in range env.NUM_ORB, (h.prev_D0 i j - h.D0 i j) ^ 2),
      zero_add]
    intro i a
    exact forLoop_sum (fun j => (h.prev_D0 i j - h.D0 i j) ^ 2) _
      (fun j a => by rw [hsq]; exact congrArg (a + ·) (pow_two _).symm) _ a
  · simp [HartreeFock.DensConverg]

theorem Iterate_test_flag {R : Type} [LinearOrderedField R] (env : Env R) (h : HartreeFock R) :
    (h.Iterate_test env).1 = (h.EConverg.1 && (h.DensConverg env).1) := by
  unfold HartreeFock.Iterate_test
  by_cases he : h.EConverg.1 = true
  · rw [if_pos he, he, Bool.true_and]
    rfl
  · rw [if_neg he]
    simp only [Bool.not_eq_true] at he
    rw [he, Bool.false_and]

/-- The bounded loop returns exactly at the first state on which the test succeeds. -/
theorem Iterate_from_iff {R : Type} [LinearOrderedField R] (env : Env R) (fuel : Nat) :
    ∀ (it : Nat) (h : HartreeFock R) (r : Nat × HartreeFock R),
      HartreeFock.Iterate_from env fuel it h = some r ↔
        ∃ n, n < fuel ∧
          r = (it + n, (HartreeFock.Iterate_test env
            ((fun s => (HartreeFock.Iterate_test env s).2.Iterate_body env)^[n] h)).2) ∧
          (HartreeFock.Iterate_test env
            ((fun s => (HartreeFock.Iterate_test env s).2.Iterate_body env)^[n] h)).1 = true ∧
          ∀ m, m < n → (HartreeFock.Iterate_test env
            ((fun s => (HartreeFock.Iterate_test env s).2.Iterate_body env)^[m] h)).1 = false := by
  induction fuel with
  | zero =>
    intro it h r
    simp [HartreeFock.Iterate_from]
  | succ fuel ih =>
    intro it h r
    by_cases ht : (h.Iterate_test env).1 = true
    · have hrun : HartreeFock.Iterate_from env (fuel + 1) it h
          = some (it, (h.Iterate_test env).2) := by
        simp [HartreeFock.Iterate_from, ht]
      rw [hrun]
      constructor
      · intro hr
        refine ⟨0, Nat.succ_pos fuel, ?_, ?_, ?_⟩
        · simpa using (Option.some.inj hr).symm
        · simpa using ht
        · intro m hm
          exact absurd hm (Nat.not_lt_zero m)
      · rintro ⟨n, _, hr, _, hall⟩
        have hn : n = 0 := by
          by_contra hne
          have h0 := hall 0 (Nat.pos_of_ne_zero hne)
          simp only [Function.iterate_zero, id_eq] at h0
          rw [ht] at h0
          exact Bool.noConfusion h0
        subst hn
        rw [hr]
        simp
    · have htf : (h.Iterate_test env).1 = false := by simpa using ht
      have hrun : HartreeFock.Iterate_from env (fuel + 1) it h
          = HartreeFock.Iterate_from env fuel (it + 1)
              ((h.Iterate_test env).2.Iterate_body env) := by
        simp [HartreeFock.Iterate_from, htf]
      rw [hrun, ih]
      constructor
      · rintro ⟨n, hn, hr, hconv, hall⟩
        refine ⟨n + 1, Nat.succ_lt_succ hn, ?_, ?_, ?_⟩
        · rw [hr, Function.iterate_succ_apply]
          congr 1
          omega
        · rw [Function.iterate_succ_apply]
          exact hconv
        · intro m hm
          cases m with
          | zero => simpa using htf
          | succ m =>
            rw [Function.iterate_succ_apply]
            exact hall m (Nat.lt_of_succ_lt_succ hm)
      · rintro ⟨n, hn, hr, hconv, hall⟩
        cases n with
        | zero =>
          simp only [Function.iterate_zero, id_eq] at hconv
          rw [htf] at hconv
          exact Bool.noConfusion hconv
        | succ n =>
          refine ⟨n, Nat.lt_of_succ_lt_succ hn, ?_, ?_, ?_⟩
          · rw [hr, Function.iterate_succ_apply]
            congr 1
            omega
          · rw [Function.iterate_succ_apply] at hconv
            exact hconv
          · intro m hm
            have := hall (m + 1) (Nat.succ_lt_succ hm)
            rw [Function.iterate_succ_apply] at this
            exact this

/-- C6: with `pow(x,2)` the square and `pow(x,0.5)` the square root, `DensConverg`
returns true iff the square root `r` of `Σ_{i,j<N} (prev_D0(i,j) - D0(i,j))^2` is
strictly below `tol_dens`; the loop test of `Iterate` is `EConverg() && DensConverg()`,
and the loop, run with any bound `fuel`, returns after `n` iterations exactly when both
predicates hold on the state reached after `n` executions of the body and at least
one of them fails on each of the states reached before. -/
theorem C6_DensConverg_and_loop_exit {R : Type} [LinearOrderedField R] (env : Env R)
    (h : HartreeFock R)
    (hsq : ∀ x : R, env.pow x 2 = x * x)
    (hsqrt : ∀ x : R, 0 ≤ x → 0 ≤ env.pow x 0.5 ∧ env.pow x 0.5 * env.pow x 0.5 = x) :
    ((h.DensConverg env).1 = true ↔
      ∃ r : R, 0 ≤ r ∧
        r * r = ∑ i in range env.NUM_ORB, ∑ j in range env.NUM_ORB,
          (h.prev_D0 i j - h.D0 i j) ^ 2 ∧
        r < h.tol_dens) ∧
    (h.Iterate_test env).1 = (h.EConverg.1 && (h.DensConverg env).1) ∧
    ∀ (fuel : Nat) (r : Nat × HartreeFock R),
      h.Iterate env fuel = some r ↔
        ∃ n, n < fuel ∧
          r = (n, (HartreeFock.Iterate_test env
            ((fun s => (HartreeFock.Iterate_test env s).2.Iterate_body env)^[n] h)).2) ∧
          (((fun s => (HartreeFock.Iterate_test env s).2.Iterate_body env)^[n] h).EConverg.1
              = true ∧
            (HartreeFock.DensConverg env
              ((fun s => (HartreeFock.Iterate_test env s).2.Iterate_body env)^[n] h)).1
              = true) ∧
          ∀ m, m < n →
            ¬ (((fun s => (HartreeFock.Iterate_test env s).2.Iterate_body env)^[m] h).EConverg.1
                = true ∧
              (HartreeFock.DensConverg env
                ((fun s => (HartreeFock.Iterate_test env s).2.Iterate_body env)^[m] h)).1
                = true) := by
  have hval : 0 ≤ ∑ i in range env.NUM_ORB, ∑ j in range env.NUM_ORB,
      (h.prev_D0 i j - h.D0 i j) ^ 2 :=
    sum_nonneg (fun i _ => sum_nonneg (fun j _ => sq_nonneg _))
  obtain ⟨hr0, hrr⟩ := hsqrt _ hval
  obtain ⟨hrms, hflag⟩ := DensConverg_rmsD env h hsq
  refine ⟨?_, Iterate_test_flag env h, ?_⟩
  · rw [hflag, hrms]
    constructor
    · intro hlt
      exact ⟨_, hr0, hrr, hlt⟩
    · rintro ⟨r, hr, hmul, hlt⟩
      have : r = env.pow (∑ i in range env.NUM_ORB, ∑ j in range env.NUM_ORB,
          (h.prev_D0 i j - h.D0 i j) ^ 2) 0.5 :=
        (mul_self_inj_of_nonneg hr hr0).1 (hmul.trans hrr.symm)
      rw [← this]
      exact hlt
  · intro fuel r
    unfold HartreeFock.Iterate
    rw [Iterate_from_iff]
    simp only [Iterate_test_flag, Bool.and_eq_true, Bool.and_eq_false_iff, zero_add,
      not_and_or, Bool.not_eq_true]

/-! ## The real function `pow` -/

theorem real_pow_two (x : ℝ) : x ^ (2 : ℝ) = x * x := by
  rw [Real.rpow_two, pow_two]

theorem real_pow_half (x : ℝ) (hx : 0 ≤ x) :
    0 ≤ x ^ (0.5 : ℝ) ∧ x ^ (0.5 : ℝ) * x ^ (0.5 : ℝ) = x := by
  have h05 : (0.5 : ℝ) = 1 / 2 := by norm_num
  rw [h05, ← Real.sqrt_eq_rpow]
  exact ⟨Real.sqrt_nonneg x, Real.mul_self_sqrt hx⟩

theorem real_pow_neg_half (x : ℝ) (hx : 0 < x) :
    x ^ (-0.5 : ℝ) * x ^ (-0.5 : ℝ) * x = 1 := by
  have h05 : (-0.5 : ℝ) = -(1 / 2) := by norm_num
  rw [h05, Real.rpow_neg hx.le, ← Real.sqrt_eq_rpow]
  have hs : Real.sqrt x * Real.sqrt x = x := Real.mul_self_sqrt hx.le
  have hne : Real.sqrt x ≠ 0 := (Real.sqrt_pos.2 hx).ne'
  field_simp

/-- Witness of C6: over `ℝ` with the real power function, the sample densities differ
by `4` in one entry, and `DensConverg` returns false for the tolerance `1/1000`. -/
theorem C6_DensConverg_and_loop_exit_witness :
    (HartreeFock.DensConverg (sampleEnvOf (fun x y : ℝ => x ^ y)) (sampleSystem ℝ)).1
      = false := by
  have key := (C6_DensConverg_and_loop_exit (sampleEnvOf (fun x y : ℝ => x ^ y))
    (sampleSystem ℝ) real_pow_two real_pow_half).1
  rw [Bool.eq_false_iff]
  intro hc
  obtain ⟨r, hr, hmul, hlt⟩ := key.1 hc
  simp [sampleEnvOf, sampleSystem, mat2, sum_range_succ] at hmul hlt
  nlinarith

/-! ## Symmetric orthogonalisation -/

theorem toMatrix_matMul {R : Type} [Semiring R] (n : Nat) (A B : Mat R) :
    toMatrix n (matMul n A B) = toMatrix n A * toMatrix n B := by
  ext i j
  simp [toMatrix, matMul, Matrix.mul_apply, Finset.sum_range]

theorem toMatrix_transpose {R : Type} (n : Nat) (A : Mat R) :
    toMatrix n (transpose A) = (toMatrix n A).transpose := by
  ext i j
  rfl

/-- The loop `for i < n: M(i,i) = f(M(i,i))`. -/
theorem forLoop_diag {R : Type} (f : R → R) (n : Nat) (M : Mat R) :
    forLoop n (fun i ev => setEntry ev i i (f (ev i i))) M =
      fun a b => if a = b ∧ a < n then f (M a a) else M a b := by
  induction n with
  | zero => funext a b; simp [forLoop_zero]
  | succ n ih =>
    rw [forLoop_succ, ih]
    funext a b
    by_cases hab : a = b
    · subst hab
      rcases Nat.lt_trichotomy a n with ha | ha | ha
      · have h1 : a ≠ n := Nat.ne_of_lt ha
        have h2 : a < n + 1 := Nat.lt_succ_of_lt ha
        simp [setEntry, h1, h2, ha]
      · subst ha
        simp [setEntry]
      · have h1 : a ≠ n := Nat.ne_of_gt ha
        have h2 : ¬ a < n + 1 := by omega
        have h3 : ¬ a < n := by omega
        simp [setEntry, h1, h2, h3]
    · by_cases han : a = n
      · have hbn : ¬ b = n := fun hb => hab (han.trans hb.symm)
        simp [setEntry, hab, hbn]
      · simp [setEntry, hab, han]

/-- The eigenvalue matrix written by `Diagonlize`, and its eigenvectors. -/
theorem Diagonlize_eq {R : Type} [LinearOrderedField R] (env : Env R) (M evals : Mat R) :
    Diagonlize env M evals =
      (fun a b => if a < env.NUM_ORB ∧ b < env.NUM_ORB then
          (if a = b then env.eigenvalues M a else 0) else evals a b,
        env.eigenvectors M) := by
  unfold Diagonlize
  show (_, _) = (_, _)
  congr 1
  apply forLoop_fill env.NUM_ORB env.NUM_ORB
    (fun a b => if a = b then env.eigenvalues M a else 0)
  intro i j F
  by_cases hij : i = j
  · subst hij
    simp
  · simp [hij]

/-- The matrix `SOM` stored by `SymmetricOrth`. -/
theorem SymmetricOrth_eq {R : Type} [LinearOrderedField R] (env : Env R) (h : HartreeFock R) :
    h.SymmetricOrth env = Except.ok { h with
      SOM := matMul env.NUM_ORB
        (matMul env.NUM_ORB (env.eigenvectors h.S)
          (fun a b => if a = b ∧ a < env.NUM_ORB
            then env.pow (env.eigenvalues h.S a) (-0.5) else 0))
        (transpose (env.eigenvectors h.S)) } := by
  have hW : forLoop env.NUM_ORB (fun i ev => setEntry ev i i (env.pow (ev i i) (-0.5)))
      (fun a b => if a < env.NUM_ORB ∧ b < env.NUM_ORB
        then (if a = b then env.eigenvalues h.S a else 0) else 0)
      = fun a b => if a = b ∧ a < env.NUM_ORB
          then env.pow (env.eigenvalues h.S a) (-0.5) else 0 := by
    rw [forLoop_diag (fun x => env.pow x (-0.5))]
    funext a b
    by_cases hab : a = b
    · subst hab
      by_cases ha : a < env.NUM_ORB
      · simp [ha]
      · simp [ha]
    · simp [hab]
  unfold HartreeFock.SymmetricOrth
  simp only [Diagonlize_eq]
  rw [hW]

theorem SymmetricOrth_SOM_entry {R : Type} [LinearOrderedField R] (env : Env R)
    (L : Mat R) (w : Vec R) (i j : Nat) :
    matMul env.NUM_ORB
        (matMul env.NUM_ORB L (fun a b => if a = b ∧ a < env.NUM_ORB then w a else 0))
        (transpose L) i j =
      ∑ k in range env.NUM_ORB, L i k * w k * L j k := by
  unfold matMul transpose
  refine sum_congr rfl (fun k hk => ?_)
  congr 1
  rw [sum_eq_single k]
  · simp [mem_range.1 hk]
  · intro m _ hmk
    simp [hmk]
  · intro hk2
    exact absurd hk hk2

/-- The algebra behind Löwdin orthogonalisation, for Mathlib matrices. -/
theorem lowdin_identity {R : Type} [Field R] {n : Nat} (L : Matrix (Fin n) (Fin n) R)
    (d w : Fin n → R) (hL : L.transpose * L = 1) (hw : ∀ k, w k * w k * d k = 1) :
    (L * Matrix.diagonal w * L.transpose).transpose * (L * Matrix.diagonal d * L.transpose)
      * (L * Matrix.diagonal w * L.transpose) = 1 := by
  have hL2 : L * L.transpose = 1 := Matrix.mul_eq_one_comm.1 hL
  have hcancel : ∀ X : Matrix (Fin n) (Fin n) R, L.transpose * (L * X) = X := by
    intro X
    rw [← Matrix.mul_assoc, hL, Matrix.one_mul]
  have hdiag : Matrix.diagonal w * (Matrix.diagonal d * Matrix.diagonal w)
      = (1 : Matrix (Fin n) (Fin n) R) := by
    have hfun : (fun i => w i * (d i * w i)) = fun _ => (1 : R) :=
      funext (fun k => by rw [← hw k]; ring)
    simp only [Matrix.diagonal_mul_diagonal]
    rw [hfun, Matrix.diagonal_one]
  have ht : (L * Matrix.diagonal w * L.transpose).transpose
      = L * Matrix.diagonal w * L.transpose := by
    rw [Matrix.transpose_mul, Matrix.transpose_mul, Matrix.transpose_transpose,
      Matrix.diagonal_transpose, Matrix.mul_assoc]
  rw [ht]
  simp only [Matrix.mul_assoc, hcancel]
  rw [← Matrix.mul_assoc (Matrix.diagonal d), ← Matrix.mul_assoc (Matrix.diagonal w),
    hdiag, Matrix.one_mul, hL2]

/-- C7: let `L` and `Λ` be the eigenvectors and eigenvalues `Diagonlize` obtains for
the overlap matrix `S`, with `L^T L = 1`, `S = L Λ L^T` and all eigenvalues strictly
positive, and let `pow(x,-0.5)` be the inverse square root of positive `x`.  Then
`SymmetricOrth` returns, stores `SOM = L Λ^(-1/2) L^T`, leaves `S` alone, and
`SOM^T * S * SOM` is the identity. -/
theorem C7_SymmetricOrth_orthogonalizes {R : Type} [LinearOrderedField R] (env : Env R)
    (h : HartreeFock R)
    (hL : ∀ i j, i < env.NUM_ORB → j < env.NUM_ORB →
      ∑ k in range env.NUM_ORB, env.eigenvectors h.S k i * env.eigenvectors h.S k j
        = if i = j then 1 else 0)
    (hS : ∀ i j, i < env.NUM_ORB → j < env.NUM_ORB →
      h.S i j = ∑ k in range env.NUM_ORB,
        env.eigenvectors h.S i k * env.eigenvalues h.S k * env.eigenvectors h.S j k)
    (hpos : ∀ k, k < env.NUM_ORB → 0 < env.eigenvalues h.S k)
    (hpow : ∀ x : R, 0 < x → env.pow x (-0.5) * env.pow x (-0.5) * x = 1) :
    ∃ h1 : HartreeFock R, h.SymmetricOrth env = Except.ok h1 ∧ h1.S = h.S ∧
      (∀ i j, h1.SOM i j = ∑ k in range env.NUM_ORB,
        env.eigenvectors h.S i k * env.pow (env.eigenvalues h.S k) (-0.5)
          * env.eigenvectors h.S j k) ∧
      ∀ i j, i < env.NUM_ORB → j < env.NUM_ORB →
        matMul env.NUM_ORB (matMul env.NUM_ORB (transpose h1.SOM) h1.S) h1.SOM i j
          = if i = j then 1 else 0 := by
  refine ⟨_, SymmetricOrth_eq env h, rfl, fun i j => SymmetricOrth_SOM_entry env _ _ i j, ?_⟩
  intro i j hi hj
  -- the three matrices as Mathlib matrices
  have hLm : (toMatrix env.NUM_ORB (env.eigenvectors h.S)).transpose
      * toMatrix env.NUM_ORB (env.eigenvectors h.S) = 1 := by
    ext a b
    rw [Matrix.mul_apply, Matrix.one_apply]
    have := hL a.val b.val a.isLt b.isLt
    rw [Finset.sum_range] at this
    simp only [Matrix.transpose_apply, toMatrix, this, Fin.ext_iff]
  have hSm : toMatrix env.NUM_ORB h.S
      = toMatrix env.NUM_ORB (env.eigenvectors h.S)
        * Matrix.diagonal (fun k : Fin env.NUM_ORB => env.eigenvalues h.S k.val)
        * (toMatrix env.NUM_ORB (env.eigenvectors h.S)).transpose := by
    ext a b
    rw [Matrix.mul_apply]
    simp only [Matrix.mul_diagonal, Matrix.transpose_apply]
    have := hS a.val b.val a.isLt b.isLt
    rw [Finset.sum_range] at this
    exact this
  have hWm : toMatrix env.NUM_ORB
      (fun a b => if a = b ∧ a < env.NUM_ORB
        then env.pow (env.eigenvalues h.S a) (-0.5) else 0)
      = Matrix.diagonal
        (fun k : Fin env.NUM_ORB => env.pow (env.eigenvalues h.S k.val) (-0.5)) := by
    ext a b
    by_cases hab : a = b
    · subst hab
      simp [toMatrix, a.isLt]
    · have : ¬ a.val = b.val := fun hv => hab (Fin.ext hv)
      simp [toMatrix, Matrix.diagonal_apply, hab, this]
  have key := lowdin_identity (toMatrix env.NUM_ORB (env.eigenvectors h.S))
    (fun k : Fin env.NUM_ORB => env.eigenvalues h.S k.val)
    (fun k : Fin env.NUM_ORB => env.pow (env.eigenvalues h.S k.val) (-0.5)) hLm
    (fun k => hpow _ (hpos k.val k.isLt))
  have hprod := congrFun (congrFun key ⟨i, hi⟩) ⟨j, hj⟩
  rw [← hWm, ← hSm] at hprod
  simp only [← toMatrix_transpose, ← toMatrix_matMul] at hprod
  rw [Matrix.one_apply] at hprod
  simpa [toMatrix, Fin.ext_iff] using hprod

/-- Witness of C7: over `ℝ`, for the overlap matrix `diag(1, 4)` of the sample system
with the real power function, `SOM^T * S * SOM` has the entries of the identity. -/
theorem C7_SymmetricOrth_orthogonalizes_witness :
    ∃ h1 : HartreeFock ℝ,
      HartreeFock.SymmetricOrth (sampleEnvOf (fun x y : ℝ => x ^ y)) (sampleSystem ℝ)
        = Except.ok h1 ∧
      matMul 2 (matMul 2 (transpose h1.SOM) h1.S) h1.SOM 0 0 = 1 ∧
      matMul 2 (matMul 2 (transpose h1.SOM) h1.S) h1.SOM 0 1 = 0 ∧
      matMul 2 (matMul 2 (transpose h1.SOM) h1.S) h1.SOM 1 1 = 1 := by
  obtain ⟨h1, hok, _, _, hI⟩ :=
    C7_SymmetricOrth_orthogonalizes (sampleEnvOf (fun x y : ℝ => x ^ y)) (sampleSystem ℝ)
      (by
        intro i j hi hj
        have hi2 : i < 2 := hi
        have hj2 : j < 2 := hj
        interval_cases i <;> interval_cases j <;> simp [sampleEnvOf, sum_range_succ])
      (by
        intro i j hi hj
        have hi2 : i < 2 := hi
        have hj2 : j < 2 := hj
        interval_cases i <;> interval_cases j <;>
          simp [sampleEnvOf, sampleSystem, mat2, sum_range_succ])
      (by
        intro k hk
        have hk2 : k < 2 := hk
        interval_cases k <;> simp [sampleEnvOf, sampleSystem, mat2])
      real_pow_neg_half
  have h00 := hI 0 0 (Nat.succ_pos 1) (Nat.succ_pos 1)
  have h01 := hI 0 1 (Nat.succ_pos 1) (Nat.lt_succ_self 1)
  have h11 := hI 1 1 (Nat.lt_succ_self 1) (Nat.lt_succ_self 1)
  exact ⟨h1, hok, by simpa using h00, by simpa using h01, by simpa using h11⟩

/-- What the constructor returns: `SymmetricOrth` hands over its result and the initial
Fock matrix, density and energy are computed from it. -/
theorem new_eq {R : Type} [LinearOrderedField R] (env : Env R) (data : Data R)
    (mem : HartreeFock R) (tol_dens tol_e : R) (h1 : HartreeFock R)
    (hok : HartreeFock.SymmetricOrth env
      { mem with enuc := data.enuc, S := data.overlap, T := data.kinetic, V := data.anuc,
                 TEI := data.eri, tol_dens := tol_dens, tol_e := tol_e,
                 Hcore := matAdd data.kinetic data.anuc } = Except.ok h1) :
    HartreeFock.new env data mem tol_dens tol_e
      = Except.ok (((h1.Set_InitialFock env).Set_DensityMatrix env).Set_Energy env) := by
  unfold HartreeFock.new
  simp only [bind, Except.bind, pure, Except.pure]
  rw [hok]

/-- C8, as stated, fails on the sample system with overlap matrix `diag(0, 1)`: the
eigenvalue `0` is not positive, yet neither `SymmetricOrth` nor the constructor ends
with `NumericalError`; the constructor returns an object. -/
theorem C8_no_NumericalError_counterexample :
    sampleEnv.eigenvalues singularHF.S 0 ≤ 0 ∧
    singularHF.SymmetricOrth sampleEnv ≠ Except.error Error.NumericalError ∧
    HartreeFock.new sampleEnv singularData sampleHF (1 / 1000) (1 / 1000000)
      ≠ Except.error Error.NumericalError := by
  refine ⟨?_, ?_, ?_⟩
  · simp [sampleEnv, sampleEnvOf, singularHF, mat2]
  · intro hc
    rw [SymmetricOrth_eq] at hc
    cases hc
  · intro hc
    rw [new_eq sampleEnv singularData sampleHF _ _ _ (SymmetricOrth_eq _ _)] at hc
    cases hc

/-- C8, amended: `SymmetricOrth` raises no error for any overlap matrix, whatever the
signs of its eigenvalues: it always returns, having stored
`SOM = L * pow(Λ, -0.5) * L^T` and changed nothing else, and the constructor always
goes on to compute the initial Fock matrix, density and energy from it. -/
theorem C8_SymmetricOrth_never_fails {R : Type} [LinearOrderedField R] (env : Env R)
    (h : HartreeFock R) (data : Data R) (mem : HartreeFock R) (tol_dens tol_e : R) :
    (∃ h1 : HartreeFock R, h.SymmetricOrth env = Except.ok h1 ∧
      h1 = { h with SOM := h1.SOM } ∧
      ∀ i j, h1.SOM i j = ∑ k in range env.NUM_ORB,
        env.eigenvectors h.S i k * env.pow (env.eigenvalues h.S k) (-0.5)
          * env.eigenvectors h.S j k) ∧
    ∃ h1 : HartreeFock R,
      HartreeFock.SymmetricOrth env
        { mem with enuc := data.enuc, S := data.overlap, T := data.kinetic, V := data.anuc,
                   TEI := data.eri, tol_dens := tol_dens, tol_e := tol_e,
                   Hcore := matAdd data.kinetic data.anuc } = Except.ok h1 ∧
      HartreeFock.new env data mem tol_dens tol_e
        = Except.ok (((h1.Set_InitialFock env).Set_DensityMatrix env).Set_Energy env) :=
  ⟨⟨_, SymmetricOrth_eq env h, rfl, fun i j => SymmetricOrth_SOM_entry env _ _ i j⟩,
    ⟨_, SymmetricOrth_eq env _, new_eq env data mem tol_dens tol_e _ (SymmetricOrth_eq env _)⟩⟩

/-! ## The AO to MO transformation -/

theorem setAt_same {R : Type} (v : Vec R) (i : Nat) (x : R) : setAt v i x i = x := by
  simp [setAt]

theorem setAt_setAt {R : Type} (v : Vec R) (i : Nat) (x y : R) :
    setAt (setAt v i x) i y = setAt v i y := by
  funext a
  by_cases ha : a = i <;> simp [setAt, ha]

theorem setAt_of_ne {R : Type} (v : Vec R) (i a : Nat) (x : R) (ha : a ≠ i) :
    setAt v i x a = v a := by
  simp [setAt, ha]

/-- A loop that adds `f x` to the single array entry `c` adds the sum of the `f x`. -/
theorem forLoop_accumAt {R : Type} [Ring R] (c : Nat) (f : Nat → R) (g : Nat → Vec R → Vec R)
    (hg : ∀ x T, g x T = setAt T c (T c + f x)) (n : Nat) (T : Vec R) :
    forLoop n g T = setAt T c (T c + ∑ x in range n, f x) := by
  induction n with
  | zero =>
    funext a
    by_cases ha : a = c
    · subst ha
      simp [forLoop_zero, setAt]
    · simp [forLoop_zero, setAt, ha]
  | succ n ih =>
    rw [forLoop_succ, ih, hg, setAt_setAt, setAt_same, sum_range_succ, add_assoc]

/-- The body of the outer loops adds the whole four-fold sum to `TEI_MO(ijkl)` and
increments the counter. -/
theorem TEI_Transform_N8_body_eq {R : Type} [LinearOrderedField R] (N : Nat) (C0 : Mat R)
    (TEI : Vec R) (i j k l : Nat) (st : Vec R × Nat) :
    TEI_Transform_N8_body N C0 TEI i j k l st =
      (setAt st.1 st.2 (st.1 st.2 + N8_sum N C0 TEI (i, j, k, l)), st.2 + 1) := by
  unfold TEI_Transform_N8_body
  show (_, _) = (_, _)
  congr 1
  apply forLoop_accumAt st.2 (fun p => ∑ q in range N, ∑ r in range N, ∑ s in range N,
    C0 p i * C0 q j * C0 r k * C0 s l * TEI (INDEX (INDEX p q) (INDEX r s)))
  intro p T
  apply forLoop_accumAt st.2 (fun q => ∑ r in range N, ∑ s in range N,
    C0 p i * C0 q j * C0 r k * C0 s l * TEI (INDEX (INDEX p q) (INDEX r s)))
  intro q T
  apply forLoop_accumAt st.2 (fun r => ∑ s in range N,
    C0 p i * C0 q j * C0 r k * C0 s l * TEI (INDEX (INDEX p q) (INDEX r s)))
  intro r T
  apply forLoop_accumAt st.2 (fun s =>
    C0 p i * C0 q j * C0 r k * C0 s l * TEI (INDEX (INDEX p q) (INDEX r s)))
  intro s T
  rfl

theorem foldl_flatMap_eq {α β σ : Type} (f : α → List β) (step : σ → β → σ) :
    ∀ (l : List α) (s : σ),
      (l.flatMap f).foldl step s = l.foldl (fun acc x => (f x).foldl step acc) s := by
  intro l
  induction l with
  | nil => intro s; rfl
  | cons x l ih =>
    intro s
    rw [List.flatMap_cons, List.foldl_append, ih]
    rfl

/-- The nested loops are one pass over the list of visited tuples. -/
theorem TEI_Transform_N8_loops_eq {R : Type} [LinearOrderedField R] (N : Nat) (C0 : Mat R)
    (TEI : Vec R) (start : Vec R × Nat) :
    TEI_Transform_N8_loops N C0 TEI start =
      (N8_tuples N).foldl
        (fun st t => (setAt st.1 st.2 (st.1 st.2 + N8_sum N C0 TEI t), st.2 + 1)) start := by
  unfold TEI_Transform_N8_loops N8_tuples N8_row forLoop
  simp only [foldl_flatMap_eq, List.foldl_map, TEI_Transform_N8_body_eq]

/-- One pass with a counter: the `n`-th element of the list is added at position
`c + n`, nothing else changes, and the counter advances by the length. -/
theorem foldl_counter {R : Type} [Ring R] {α : Type} (S : α → R) :
    ∀ (L : List α) (T : Vec R) (c : Nat),
      (L.foldl (fun st t => (setAt st.1 st.2 (st.1 st.2 + S t), st.2 + 1)) (T, c)).2
          = c + L.length ∧
      (∀ n (hn : n < L.length),
        (L.foldl (fun st t => (setAt st.1 st.2 (st.1 st.2 + S t), st.2 + 1)) (T, c)).1 (c + n)
          = T (c + n) + S (L.get ⟨n, hn⟩)) ∧
      ∀ a, (a < c ∨ c + L.length ≤ a) →
        (L.foldl (fun st t => (setAt st.1 st.2 (st.1 st.2 + S t), st.2 + 1)) (T, c)).1 a
          = T a := by
  intro L
  induction L with
  | nil =>
    intro T c
    refine ⟨rfl, ?_, fun a _ => rfl⟩
    intro n hn
    exact absurd hn (Nat.not_lt_zero n)
  | cons t L ih =>
    intro T c
    rw [List.foldl_cons]
    obtain ⟨h1, h2, h3⟩ := ih (setAt T c (T c + S t)) (c + 1)
    refine ⟨?_, ?_, ?_⟩
    · rw [h1, List.length_cons]
      omega
    · intro n hn
      cases n with
      | zero =>
        rw [h3 (c + 0) (Or.inl (by omega))]
        simp [setAt]
      | succ n =>
        have hn2 : n < L.length := Nat.lt_of_succ_lt_succ hn
        have hc : c + (n + 1) = c + 1 + n := by omega
        rw [hc, h2 n hn2, setAt_of_ne _ _ _ _ (by omega)]
        rfl
    · intro a ha
      rw [List.length_cons] at ha
      rw [h3 a (by omega), setAt_of_ne _ _ _ _ (by omega)]

/-! ### The visited addresses -/

theorem tri_succ (n : Nat) : (n + 1) * (n + 1 + 1) / 2 = n * (n + 1) / 2 + (n + 1) := by
  have h : (n + 1) * (n + 1 + 1) = n * (n + 1) + 2 * (n + 1) := by ring
  rw [h, Nat.add_mul_div_left _ _ (by decide : 0 < 2)]

theorem tri_mono {m n : Nat} (hmn : m ≤ n) : m * (m + 1) / 2 ≤ n * (n + 1) / 2 :=
  Nat.div_le_div_right (Nat.mul_le_mul hmn (Nat.succ_le_succ hmn))

/-- Row by row, the packed triangular addresses `a*(a+1)/2 + b`, `b ≤ a < n`, count
up from `0`. -/
theorem tri_enum (n : Nat) :
    (List.range n).flatMap (fun a => (List.range (a + 1)).map (fun b => a * (a + 1) / 2 + b))
      = List.range (n * (n + 1) / 2) := by
  induction n with
  | zero => rfl
  | succ n ih =>
    rw [List.range_succ, List.flatMap_append, ih, List.flatMap_singleton, tri_succ]
    exact (List.range_add _ _).symm

/-- The addresses of the tuples visited for fixed `i ≥ j`: with `ij = INDEX(i,j)`,
they are `ij*(ij+1)/2 + kl` for `kl = 0, ..., ij` in this order. -/
theorem N8_row_address (i j : Nat) (hij : j ≤ i) :
    (N8_row i j).map N8_address =
      (List.range (i * (i + 1) / 2 + j + 1)).map
        (fun b => (i * (i + 1) / 2 + j) * (i * (i + 1) / 2 + j + 1) / 2 + b) := by
  have hcell : ∀ k l, k ≤ i → l ≤ (if i = k then j else k) →
      N8_address (i, j, k, l) =
        (i * (i + 1) / 2 + j) * (i * (i + 1) / 2 + j + 1) / 2 + (k * (k + 1) / 2 + l) := by
    intro k l hk hl
    have hlk : l ≤ k := by
      by_cases hik : i = k
      · rw [if_pos hik] at hl
        omega
      · rw [if_neg hik] at hl
        exact hl
    have hle : k * (k + 1) / 2 + l ≤ i * (i + 1) / 2 + j := by
      by_cases hik : i = k
      · rw [if_pos hik] at hl
        subst hik
        omega
      · rw [if_neg hik] at hl
        have hki : k + 1 ≤ i := by omega
        have h1 := tri_mono hki
        rw [tri_succ] at h1
        omega
    show INDEX (INDEX i j) (INDEX k l) = _
    rw [INDEX_of_ge i j hij, INDEX_of_ge k l hlk, INDEX_of_ge _ _ hle]
  have hstep : (N8_row i j).map N8_address =
      ((List.range (i + 1)).flatMap (fun k =>
        (List.range ((if i = k then j else k) + 1)).map (fun l => k * (k + 1) / 2 + l))).map
        (fun b => (i * (i + 1) / 2 + j) * (i * (i + 1) / 2 + j + 1) / 2 + b) := by
    unfold N8_row
    rw [List.map_flatMap, List.map_flatMap]
    refine List.flatMap_congr ?_
    intro k hk
    rw [List.map_map, List.map_map]
    refine List.map_congr_left ?_
    intro l hl
    exact hcell k l (Nat.lt_succ_iff.1 (List.mem_range.1 hk))
      (Nat.lt_succ_iff.1 (List.mem_range.1 hl))
  rw [hstep]
  congr 1
  rw [List.range_succ, List.flatMap_append, List.flatMap_singleton, if_pos rfl]
  have hlow : (List.range i).flatMap (fun k =>
      (List.range ((if i = k then j else k) + 1)).map (fun l => k * (k + 1) / 2 + l))
      = List.range (i * (i + 1) / 2) := by
    rw [← tri_enum i]
    refine List.flatMap_congr ?_
    intro k hk
    have hne : ¬ i = k := by
      have := List.mem_range.1 hk
      omega
    rw [if_neg hne]
  rw [hlow, Nat.add_assoc]
  exact (List.range_add _ _).symm

/-- The loops of `TEI_Transform_N8` visit the compressed addresses `0, 1, ..., M-1` in
increasing order, each once, where `P = N*(N+1)/2` and `M = P*(P+1)/2`. -/
theorem N8_tuples_address (N : Nat) :
    (N8_tuples N).map N8_address
      = List.range ((N * (N + 1) / 2) * (N * (N + 1) / 2 + 1) / 2) := by
  rw [← tri_enum (N * (N + 1) / 2), ← tri_enum N]
  unfold N8_tuples
  rw [List.map_flatMap, List.flatMap_assoc]
  refine List.flatMap_congr ?_
  intro i _
  rw [List.map_flatMap, List.flatMap_map]
  refine List.flatMap_congr ?_
  intro j hj
  exact N8_row_address i j (Nat.lt_succ_iff.1 (List.mem_range.1 hj))

theorem N8_tuples_length (N : Nat) :
    (N8_tuples N).length = (N * (N + 1) / 2) * (N * (N + 1) / 2 + 1) / 2 := by
  have h := congrArg List.length (N8_tuples_address N)
  rw [List.length_map, List.length_range] at h
  exact h

/-- The `n`-th visited tuple has the compressed address `n`. -/
theorem N8_tuples_get_address (N n : Nat) (hn : n < (N8_tuples N).length) :
    N8_address ((N8_tuples N).get ⟨n, hn⟩) = n := by
  have h1 : ((N8_tuples N).map N8_address)[n]? = some n := by
    rw [N8_tuples_address, List.getElem?_range]
    rw [← N8_tuples_length]
    exact hn
  rw [List.getElem?_map, List.getElem?_eq_getElem hn] at h1
  exact Option.some.inj h1

/-- What `TEI_Transform_N8` leaves in `TEI_MO`: position `n` holds the transformed
integral of the `n`-th visited tuple, and positions that are not visited hold `0`. -/
theorem TEI_Transform_N8_at {R : Type} [LinearOrderedField R] (env : Env R)
    (h : HartreeFock R) :
    (∀ n (hn : n < (N8_tuples env.NUM_ORB).length),
      (h.TEI_Transform_N8 env).TEI_MO n
        = N8_sum env.NUM_ORB h.C0 h.TEI ((N8_tuples env.NUM_ORB).get ⟨n, hn⟩)) ∧
    ∀ a, (N8_tuples env.NUM_ORB).length ≤ a → (h.TEI_Transform_N8 env).TEI_MO a = 0 := by
  obtain ⟨_, h2, h3⟩ := foldl_counter (N8_sum env.NUM_ORB h.C0 h.TEI)
    (N8_tuples env.NUM_ORB) (setzero h.TEI_MO) 0
  constructor
  · intro n hn
    show (TEI_Transform_N8_loops env.NUM_ORB h.C0 h.TEI (setzero h.TEI_MO, 0)).1 n = _
    rw [TEI_Transform_N8_loops_eq]
    have := h2 n hn
    rw [Nat.zero_add] at this
    rw [this]
    simp [setzero]
  · intro a ha
    show (TEI_Transform_N8_loops env.NUM_ORB h.C0 h.TEI (setzero h.TEI_MO, 0)).1 a = _
    rw [TEI_Transform_N8_loops_eq, h3 a (Or.inr (by omega))]
    rfl

/-! ### Permutational symmetry of the transformed integral -/

theorem N8_sum_swap12 {R : Type} [CommRing R] (N : Nat) (C0 : Mat R) (TEI : Vec R)
    (i j k l : Nat) : N8_sum N C0 TEI (j, i, k, l) = N8_sum N C0 TEI (i, j, k, l) := by
  unfold N8_sum
  rw [sum_comm]
  refine sum_congr rfl (fun a _ => sum_congr rfl (fun b _ => sum_congr rfl (fun r _ =>
    sum_congr rfl (fun s _ => ?_))))
  show C0 b j * C0 a i * C0 r k * C0 s l * TEI (INDEX (INDEX b a) (INDEX r s))
    = C0 a i * C0 b j * C0 r k * C0 s l * TEI (INDEX (INDEX a b) (INDEX r s))
  rw [INDEX_comm b a]
  ring

theorem N8_sum_swap34 {R : Type} [CommRing R] (N : Nat) (C0 : Mat R) (TEI : Vec R)
    (i j k l : Nat) : N8_sum N C0 TEI (i, j, l, k) = N8_sum N C0 TEI (i, j, k, l) := by
  unfold N8_sum
  refine sum_congr rfl (fun p _ => sum_congr rfl (fun q _ => ?_))
  rw [sum_comm]
  refine sum_congr rfl (fun a _ => sum_congr rfl (fun b _ => ?_))
  show C0 p i * C0 q j * C0 b l * C0 a k * TEI (INDEX (INDEX p q) (INDEX b a))
    = C0 p i * C0 q j * C0 a k * C0 b l * TEI (INDEX (INDEX p q) (INDEX a b))
  rw [INDEX_comm b a]
  ring

theorem sum4_comm {R : Type} [CommRing R] (N : Nat) (F : Nat → Nat → Nat → Nat → R) :
    ∑ p in range N, ∑ q in range N, ∑ r in range N, ∑ s in range N, F p q r s
      = ∑ r in range N, ∑ s in range N, ∑ p in range N, ∑ q in range N, F p q r s := by
  calc ∑ p in range N, ∑ q in range N, ∑ r in range N, ∑ s in range N, F p q r s
      = ∑ p in range N, ∑ r in range N, ∑ q in range N, ∑ s in range N, F p q r s :=
        sum_congr rfl (fun p _ => sum_comm)
    _ = ∑ r in range N, ∑ p in range N, ∑ q in range N, ∑ s in range N, F p q r s := sum_comm
    _ = ∑ r in range N, ∑ p in range N, ∑ s in range N, ∑ q in range N, F p q r s :=
        sum_congr rfl (fun r _ => sum_congr rfl (fun p _ => sum_comm))
    _ = ∑ r in range N, ∑ s in range N, ∑ p in range N, ∑ q in range N, F p q r s :=
        sum_congr rfl (fun r _ => sum_comm)

theorem N8_sum_swap_pairs {R : Type} [CommRing R] (N : Nat) (C0 : Mat R) (TEI : Vec R)
    (i j k l : Nat) : N8_sum N C0 TEI (k, l, i, j) = N8_sum N C0 TEI (i, j, k, l) := by
  unfold N8_sum
  rw [sum4_comm N (fun p q r s =>
    C0 p i * C0 q j * C0 r k * C0 s l * TEI (INDEX (INDEX p q) (INDEX r s)))]
  refine sum_congr rfl (fun a _ => sum_congr rfl (fun b _ => sum_congr rfl (fun c _ =>
    sum_congr rfl (fun d _ => ?_))))
  show C0 a k * C0 b l * C0 c i * C0 d j * TEI (INDEX (INDEX a b) (INDEX c d))
    = C0 c i * C0 d j * C0 a k * C0 b l * TEI (INDEX (INDEX c d) (INDEX a b))
  rw [INDEX_comm (INDEX a b)]
  ring

/-! ### Every index tuple has a visited representative -/

theorem N8_mem_of_canonical (N i j k l : Nat) (hi : i < N) (hji : j ≤ i) (hlk : l ≤ k)
    (hle : INDEX k l ≤ INDEX i j) : (i, j, k, l) ∈ N8_tuples N := by
  rw [INDEX_of_ge i j hji, INDEX_of_ge k l hlk] at hle
  have hki : k ≤ i := by
    by_contra hcon
    have h1 := tri_mono (show i + 1 ≤ k by omega)
    rw [tri_succ] at h1
    omega
  have hl : l ≤ (if i = k then j else k) := by
    by_cases hik : i = k
    · rw [if_pos hik]
      subst hik
      omega
    · rw [if_neg hik]
      exact hlk
  exact List.mem_flatMap.2 ⟨i, List.mem_range.2 hi,
    List.mem_flatMap.2 ⟨j, List.mem_range.2 (Nat.lt_succ_of_le hji),
      List.mem_flatMap.2 ⟨k, List.mem_range.2 (Nat.lt_succ_of_le hki),
        List.mem_map.2 ⟨l, List.mem_range.2 (Nat.lt_succ_of_le hl), rfl⟩⟩⟩⟩

theorem N8_representative2 {R : Type} [CommRing R] (N : Nat) (C0 : Mat R) (TEI : Vec R)
    (i j k l : Nat) (hi : i < N) (hk : k < N) (hji : j ≤ i) (hlk : l ≤ k) :
    ∃ t, t ∈ N8_tuples N ∧ N8_address t = N8_address (i, j, k, l) ∧
      N8_sum N C0 TEI t = N8_sum N C0 TEI (i, j, k, l) := by
  by_cases hle : INDEX k l ≤ INDEX i j
  · exact ⟨(i, j, k, l), N8_mem_of_canonical N i j k l hi hji hlk hle, rfl, rfl⟩
  · exact ⟨(k, l, i, j), N8_mem_of_canonical N k l i j hk hlk hji (by omega),
      INDEX_comm _ _, N8_sum_swap_pairs N C0 TEI i j k l⟩

theorem N8_representative1 {R : Type} [CommRing R] (N : Nat) (C0 : Mat R) (TEI : Vec R)
    (i j k l : Nat) (hi : i < N) (hk : k < N) (hl : l < N) (hji : j ≤ i) :
    ∃ t, t ∈ N8_tuples N ∧ N8_address t = N8_address (i, j, k, l) ∧
      N8_sum N C0 TEI t = N8_sum N C0 TEI (i, j, k, l) := by
  by_cases hlk : l ≤ k
  · exact N8_representative2 N C0 TEI i j k l hi hk hji hlk
  · obtain ⟨t, ht, ha, hs⟩ := N8_representative2 N C0 TEI i j l k hi hl hji (by omega)
    refine ⟨t, ht, ha.trans ?_, hs.trans (N8_sum_swap34 N C0 TEI i j k l)⟩
    show INDEX (INDEX i j) (INDEX l k) = INDEX (INDEX i j) (INDEX k l)
    rw [INDEX_comm l k]

/-- Every tuple of orbital indices below `N` has a visited tuple with the same
compressed address and the same transformed integral. -/
theorem N8_representative {R : Type} [CommRing R] (N : Nat) (C0 : Mat R) (TEI : Vec R)
    (i j k l : Nat) (hi : i < N) (hj : j < N) (hk : k < N) (hl : l < N) :
    ∃ t, t ∈ N8_tuples N ∧ N8_address t = N8_address (i, j, k, l) ∧
      N8_sum N C0 TEI t = N8_sum N C0 TEI (i, j, k, l) := by
  by_cases hji : j ≤ i
  · exact N8_representative1 N C0 TEI i j k l hi hk hl hji
  · obtain ⟨t, ht, ha, hs⟩ := N8_representative1 N C0 TEI j i k l hj hk hl (by omega)
    refine ⟨t, ht, ha.trans ?_, hs.trans (N8_sum_swap12 N C0 TEI i j k l)⟩
    show INDEX (INDEX j i) (INDEX k l) = INDEX (INDEX i j) (INDEX k l)
    rw [INDEX_comm j i]

/-- C9: after `TEI_Transform_N8`, for all `i, j, k, l < N`, in any order,
`TEI_MO[INDEX(INDEX(i,j),INDEX(k,l))]
  = Σ_{p,q,r,s<N} C0(p,i) C0(q,j) C0(r,k) C0(s,l) TEI[INDEX(INDEX(p,q),INDEX(r,s))]`;
the sum is invariant under `i <-> j`, `k <-> l` and `(i,j) <-> (k,l)`. -/
theorem C9_TEI_Transform_N8_formula {R : Type} [LinearOrderedField R] (env : Env R)
    (h : HartreeFock R) (i j k l : Nat) (hi : i < env.NUM_ORB) (hj : j < env.NUM_ORB)
    (hk : k < env.NUM_ORB) (hl : l < env.NUM_ORB) :
    (h.TEI_Transform_N8 env).TEI_MO (INDEX (INDEX i j) (INDEX k l)) =
      ∑ p in range env.NUM_ORB, ∑ q in range env.NUM_ORB, ∑ r in range env.NUM_ORB,
        ∑ s in range env.NUM_ORB,
          h.C0 p i * h.C0 q j * h.C0 r k * h.C0 s l
            * h.TEI (INDEX (INDEX p q) (INDEX r s)) ∧
    N8_sum env.NUM_ORB h.C0 h.TEI (j, i, k, l) = N8_sum env.NUM_ORB h.C0 h.TEI (i, j, k, l) ∧
    N8_sum env.NUM_ORB h.C0 h.TEI (i, j, l, k) = N8_sum env.NUM_ORB h.C0 h.TEI (i, j, k, l) ∧
    N8_sum env.NUM_ORB h.C0 h.TEI (k, l, i, j) = N8_sum env.NUM_ORB h.C0 h.TEI (i, j, k, l) := by
  refine ⟨?_, N8_sum_swap12 _ _ _ i j k l, N8_sum_swap34 _ _ _ i j k l,
    N8_sum_swap_pairs _ _ _ i j k l⟩
  obtain ⟨t, ht, ha, hs⟩ := N8_representative env.NUM_ORB h.C0 h.TEI i j k l hi hj hk hl
  obtain ⟨n, hn⟩ := List.mem_iff_get.1 ht
  have hpos : N8_address t = n.val := by
    rw [← hn]
    exact N8_tuples_get_address env.NUM_ORB n.val n.isLt
  have haddr : INDEX (INDEX i j) (INDEX k l) = n.val := ha.symm.trans hpos
  rw [haddr, (TEI_Transform_N8_at env h).1 n.val n.isLt]
  show N8_sum env.NUM_ORB h.C0 h.TEI ((N8_tuples env.NUM_ORB).get n) = _
  rw [hn, hs]
  rfl

/-- Witness of C9: the entry of `TEI_MO` at the address of the non-canonical tuple
`(0,1,1,0)` of the sample system is the four-fold sum for that tuple. -/
theorem C9_TEI_Transform_N8_formula_witness :
    (sampleHF.TEI_Transform_N8 sampleEnv).TEI_MO (INDEX (INDEX 0 1) (INDEX 1 0)) =
      ∑ p in range 2, ∑ q in range 2, ∑ r in range 2, ∑ s in range 2,
        sampleHF.C0 p 0 * sampleHF.C0 q 1 * sampleHF.C0 r 1 * sampleHF.C0 s 0
          * sampleHF.TEI (INDEX (INDEX p q) (INDEX r s)) :=
  (C9_TEI_Transform_N8_formula sampleEnv sampleHF 0 1 1 0
    (by decide) (by decide) (by decide) (by decide)).1

/-! ### Identity coefficients -/

/-- A sum against a column of the identity picks one term. -/
theorem sum_delta {R : Type} [CommRing R] (N i : Nat) (hi : i < N) (c f : Nat → R)
    (hc : ∀ p, p < N → c p = if p = i then 1 else 0) :
    ∑ p in range N, c p * f p = f i := by
  rw [sum_eq_single i]
  · rw [hc i hi, if_pos rfl, one_mul]
  · intro p hp hpi
    rw [hc p (mem_range.1 hp), if_neg hpi, zero_mul]
  · intro hni
    exact absurd (mem_range.2 hi) hni

/-- With identity coefficients the transformed integral of a tuple is the AO
integral at the address of the tuple. -/
theorem N8_sum_identity {R : Type} [CommRing R] (N : Nat) (C0 : Mat R) (TEI : Vec R)
    (hC : ∀ p i, p < N → i < N → C0 p i = if p = i then 1 else 0)
    (i j k l : Nat) (hi : i < N) (hj : j < N) (hk : k < N) (hl : l < N) :
    N8_sum N C0 TEI (i, j, k, l) = TEI (INDEX (INDEX i j) (INDEX k l)) := by
  have h4 : ∀ p q r, ∑ s in range N,
      C0 p i * C0 q j * C0 r k * C0 s l * TEI (INDEX (INDEX p q) (INDEX r s))
      = C0 p i * C0 q j * C0 r k * TEI (INDEX (INDEX p q) (INDEX r l)) := by
    intro p q r
    rw [← sum_delta N l hl (fun s => C0 s l)
      (fun s => C0 p i * C0 q j * C0 r k * TEI (INDEX (INDEX p q) (INDEX r s)))
      (fun s hs => hC s l hs hl)]
    refine sum_congr rfl (fun s _ => ?_)
    ring
  have h3 : ∀ p q, ∑ r in range N,
      C0 p i * C0 q j * C0 r k * TEI (INDEX (INDEX p q) (INDEX r l))
      = C0 p i * C0 q j * TEI (INDEX (INDEX p q) (INDEX k l)) := by
    intro p q
    rw [← sum_delta N k hk (fun r => C0 r k)
      (fun r => C0 p i * C0 q j * TEI (INDEX (INDEX p q) (INDEX r l)))
      (fun r hr => hC r k hr hk)]
    refine sum_congr rfl (fun r _ => ?_)
    ring
  have h2 : ∀ p, ∑ q in range N,
      C0 p i * C0 q j * TEI (INDEX (INDEX p q) (INDEX k l))
      = C0 p i * TEI (INDEX (INDEX p j) (INDEX k l)) := by
    intro p
    rw [← sum_delta N j hj (fun q => C0 q j)
      (fun q => C0 p i * TEI (INDEX (INDEX p q) (INDEX k l)))
      (fun q hq => hC q j hq hj)]
    refine sum_congr rfl (fun q _ => ?_)
    ring
  unfold N8_sum
  simp only [h4, h3, h2]
  exact sum_delta N i hi (fun p => C0 p i)
    (fun p => TEI (INDEX (INDEX p j) (INDEX k l))) (fun p hp => hC p i hp hi)

/-- The components of a visited tuple are orbital indices below `N`. -/
theorem N8_tuples_bound (N : Nat) (t : Nat × Nat × Nat × Nat) (ht : t ∈ N8_tuples N) :
    t.1 < N ∧ t.2.1 < N ∧ t.2.2.1 < N ∧ t.2.2.2 < N := by
  obtain ⟨i, hi, ht1⟩ := List.mem_flatMap.1 ht
  obtain ⟨j, hj, ht2⟩ := List.mem_flatMap.1 ht1
  obtain ⟨k, hk, ht3⟩ := List.mem_flatMap.1 ht2
  obtain ⟨l, hl, rfl⟩ := List.mem_map.1 ht3
  have hi2 := List.mem_range.1 hi
  have hj2 := List.mem_range.1 hj
  have hk2 := List.mem_range.1 hk
  have hl2 := List.mem_range.1 hl
  refine ⟨hi2, ?_, ?_, ?_⟩
  · show j < N
    omega
  · show k < N
    omega
  show l < N
  by_cases hik : i = k
  · rw [if_pos hik] at hl2
    omega
  · rw [if_neg hik] at hl2
    omega

/-- C10: when the coefficient matrix `C0` is the identity, `TEI_Transform_N8` returns
`TEI_MO[a] = TEI[a]` at every compressed address `a < M`, where `P = N*(N+1)/2` and
`M = P*(P+1)/2`, for every basis size `N` and every array `TEI`. -/
theorem C10_TEI_Transform_N8_identity {R : Type} [LinearOrderedField R] (env : Env R)
    (h : HartreeFock R)
    (hC : ∀ p i, p < env.NUM_ORB → i < env.NUM_ORB → h.C0 p i = if p = i then 1 else 0)
    (a : Nat)
    (ha : a < (env.NUM_ORB * (env.NUM_ORB + 1) / 2)
      * (env.NUM_ORB * (env.NUM_ORB + 1) / 2 + 1) / 2) :
    (h.TEI_Transform_N8 env).TEI_MO a = h.TEI a := by
  have hn : a < (N8_tuples env.NUM_ORB).length := by
    rw [N8_tuples_length]
    exact ha
  obtain ⟨hi, hj, hk, hl⟩ := N8_tuples_bound env.NUM_ORB _
    (List.get_mem (N8_tuples env.NUM_ORB) a hn)
  have haddr := N8_tuples_get_address env.NUM_ORB a hn
  rw [(TEI_Transform_N8_at env h).1 a hn]
  have hsum := N8_sum_identity env.NUM_ORB h.C0 h.TEI hC _ _ _ _ hi hj hk hl
  rw [hsum]
  exact congrArg h.TEI haddr

/-- Witness of C10: the two-orbital tensor `1, ..., 6` passes through the transform with
identity coefficients unchanged, here at the addresses `4` and `5`. -/
theorem C10_TEI_Transform_N8_identity_witness :
    (identityHF.TEI_Transform_N8 sampleEnv).TEI_MO 4 = 5 ∧
    (identityHF.TEI_Transform_N8 sampleEnv).TEI_MO 5 = 6 := by
  have hC : ∀ p i, p < sampleEnv.NUM_ORB → i < sampleEnv.NUM_ORB →
      identityHF.C0 p i = if p = i then 1 else 0 := by
    intro p i hp hi
    have hp2 : p < 2 := hp
    have hi2 : i < 2 := hi
    interval_cases p <;> interval_cases i <;> simp [identityHF, mat2]
  constructor
  · rw [C10_TEI_Transform_N8_identity sampleEnv identityHF hC 4 (by decide)]
    simp [identityHF, sampleHF, sampleSystem]
    norm_num
  · rw [C10_TEI_Transform_N8_identity sampleEnv identityHF hC 5 (by decide)]
    simp [identityHF, sampleHF, sampleSystem]
    norm_num

/-! ## Frame and ordering of an iteration step -/

theorem SameIntegrals_refl {R : Type} (h : HartreeFock R) : SameIntegrals h h :=
  ⟨rfl, rfl, rfl, rfl, rfl, rfl, rfl⟩

theorem SameIntegrals_Iterate_test {R : Type} [LinearOrderedField R] (env : Env R)
    (h : HartreeFock R) : SameIntegrals h (h.Iterate_test env).2 := by
  unfold HartreeFock.Iterate_test
  by_cases he : h.EConverg.1 = true
  · rw [if_pos he]
    exact ⟨rfl, rfl, rfl, rfl, rfl, rfl, rfl⟩
  · rw [if_neg he]
    exact ⟨rfl, rfl, rfl, rfl, rfl, rfl, rfl⟩

theorem SameIntegrals_trans {R : Type} {h h1 h2 : HartreeFock R}
    (h01 : SameIntegrals h h1) (h12 : SameIntegrals h1 h2) : SameIntegrals h h2 := by
  obtain ⟨a1, a2, a3, a4, a5, a6, a7⟩ := h01
  obtain ⟨b1, b2, b3, b4, b5, b6, b7⟩ := h12
  exact ⟨b1.trans a1, b2.trans a2, b3.trans a3, b4.trans a4, b5.trans a5, b6.trans a6,
    b7.trans a7⟩

theorem SameIntegrals_Hcore {R : Type} [LinearOrderedField R] {h h1 : HartreeFock R}
    (h01 : SameIntegrals h h1) :
    h1.Hcore = matAdd h1.T h1.V ↔ h.Hcore = matAdd h.T h.V := by
  obtain ⟨_, a2, a3, a4, _, _, _⟩ := h01
  rw [a2, a3, a4]

theorem SameIntegrals_Iterate_body {R : Type} [LinearOrderedField R] (env : Env R)
    (h : HartreeFock R) : SameIntegrals h (h.Iterate_body env) :=
  ⟨rfl, rfl, rfl, rfl, rfl, rfl, rfl⟩

theorem SameIntegrals_MP2_Energy {R : Type} [LinearOrderedField R] (env : Env R)
    (h : HartreeFock R) : SameIntegrals h (h.MP2_Energy env).2 :=
  ⟨rfl, rfl, rfl, rfl, rfl, rfl, rfl⟩

theorem SameIntegrals_TEI_Transform_N8 {R : Type} [LinearOrderedField R] (env : Env R)
    (h : HartreeFock R) : SameIntegrals h (h.TEI_Transform_N8 env) :=
  ⟨rfl, rfl, rfl, rfl, rfl, rfl, rfl⟩

theorem SameIntegrals_MP2_Correction {R : Type} [LinearOrderedField R] (env : Env R)
    (h : HartreeFock R) : SameIntegrals h (h.MP2_Correction env) := by
  have h1 : SameIntegrals h (h.MOBasisFock env) := ⟨rfl, rfl, rfl, rfl, rfl, rfl, rfl⟩
  have h2 : SameIntegrals (h.MOBasisFock env) ((h.MOBasisFock env).Set_OrbitalEnergy env) :=
    ⟨rfl, rfl, rfl, rfl, rfl, rfl, rfl⟩
  have h3 := SameIntegrals_TEI_Transform_N8 env ((h.MOBasisFock env).Set_OrbitalEnergy env)
  have h4 := SameIntegrals_MP2_Energy env
    (((h.MOBasisFock env).Set_OrbitalEnergy env).TEI_Transform_N8 env)
  have h5 : SameIntegrals
      ((((h.MOBasisFock env).Set_OrbitalEnergy env).TEI_Transform_N8 env).MP2_Energy env).2
      (h.MP2_Correction env) := by
    unfold HartreeFock.MP2_Correction
    exact ⟨rfl, rfl, rfl, rfl, rfl, rfl, rfl⟩
  exact SameIntegrals_trans (SameIntegrals_trans (SameIntegrals_trans
    (SameIntegrals_trans h1 h2) h3) h4) h5

/-- C16: every function of the `Iterate` loop body, the body as a whole, the loop
test, and every step of `MP2_Correction` as well as `MP2_Correction` itself leave
`S`, `T`, `V`, `Hcore`, `SOM`, `TEI` and `enuc` as they were; so `Hcore = T + V` holds
after the call iff it held before. -/
theorem C16_integrals_read_only {R : Type} [LinearOrderedField R] (env : Env R)
    (h : HartreeFock R) :
    (SameIntegrals h h.SaveEnergy ∧ SameIntegrals h (h.SaveDensity env) ∧
      SameIntegrals h (h.Set_Fock env) ∧ SameIntegrals h (h.Set_DensityMatrix env) ∧
      SameIntegrals h (h.Set_Energy env) ∧ SameIntegrals h (h.Iterate_body env) ∧
      SameIntegrals h (h.Iterate_test env).2) ∧
    (SameIntegrals h (h.MOBasisFock env) ∧ SameIntegrals h (h.Set_OrbitalEnergy env) ∧
      SameIntegrals h (h.TEI_Transform_N8 env) ∧ SameIntegrals h (h.MP2_Energy env).2 ∧
      SameIntegrals h (h.MP2_Correction env)) ∧
    (((h.Iterate_body env).Hcore = matAdd (h.Iterate_body env).T (h.Iterate_body env).V
        ↔ h.Hcore = matAdd h.T h.V) ∧
      ((h.MP2_Correction env).Hcore
          = matAdd (h.MP2_Correction env).T (h.MP2_Correction env).V
        ↔ h.Hcore = matAdd h.T h.V)) :=
  ⟨⟨⟨rfl, rfl, rfl, rfl, rfl, rfl, rfl⟩, ⟨rfl, rfl, rfl, rfl, rfl, rfl, rfl⟩,
      ⟨rfl, rfl, rfl, rfl, rfl, rfl, rfl⟩, ⟨rfl, rfl, rfl, rfl, rfl, rfl, rfl⟩,
      ⟨rfl, rfl, rfl, rfl, rfl, rfl, rfl⟩, SameIntegrals_Iterate_body env h,
      SameIntegrals_Iterate_test env h⟩,
    ⟨⟨rfl, rfl, rfl, rfl, rfl, rfl, rfl⟩, ⟨rfl, rfl, rfl, rfl, rfl, rfl, rfl⟩,
      SameIntegrals_TEI_Transform_N8 env h, SameIntegrals_MP2_Energy env h,
      SameIntegrals_MP2_Correction env h⟩,
    ⟨SameIntegrals_Hcore (SameIntegrals_Iterate_body env h),
      SameIntegrals_Hcore (SameIntegrals_MP2_Correction env h)⟩⟩

theorem SaveDensity_prev_D0 {R : Type} [LinearOrderedField R] (env : Env R)
    (h : HartreeFock R) :
    (h.SaveDensity env).prev_D0 = fun a b =>
      if a < env.NUM_ORB ∧ b < env.NUM_ORB then h.D0 a b else h.prev_D0 a b := by
  show forLoop env.NUM_ORB _ h.prev_D0 = _
  exact forLoop_fill env.NUM_ORB env.NUM_ORB (fun a b => h.D0 a b) _ (fun i j M => rfl) _

/-- The Fock matrix after one execution of the loop body. -/
theorem Iterate_body_F0 {R : Type} [LinearOrderedField R] (env : Env R) (h : HartreeFock R) :
    (h.Iterate_body env).F0 = fun a b =>
      if a < env.NUM_ORB ∧ b < env.NUM_ORB then
        h.Hcore a b + ∑ k in range env.NUM_ORB, ∑ l in range env.NUM_ORB,
          h.D0 k l * (2 * h.TEI (INDEX (INDEX a b) (INDEX k l))
            - h.TEI (INDEX (INDEX a k) (INDEX b l)))
      else h.F0 a b :=
  Set_Fock_entry env (h.SaveEnergy.SaveDensity env)

/-- C18: after one execution of the `Iterate` loop body, `prev_etot` is the `etot` from
before the step, `prev_D0(i,j)` is the `D0(i,j)` from before the step for all
`i, j < N`, and the new `F0(i,j)` is the Fock formula evaluated with the density from
before the step. -/
theorem C18_snapshot_ordering {R : Type} [LinearOrderedField R] (env : Env R)
    (h : HartreeFock R) (i j : Nat) (hi : i < env.NUM_ORB) (hj : j < env.NUM_ORB) :
    (h.Iterate_body env).prev_etot = h.etot ∧
    (h.Iterate_body env).prev_D0 i j = h.D0 i j ∧
    (h.Iterate_body env).F0 i j =
      h.Hcore i j + ∑ k in range env.NUM_ORB, ∑ l in range env.NUM_ORB,
        h.D0 k l * (2 * h.TEI (INDEX (INDEX i j) (INDEX k l))
          - h.TEI (INDEX (INDEX i k) (INDEX j l))) := by
  refine ⟨rfl, ?_, ?_⟩
  · show (HartreeFock.SaveDensity env h.SaveEnergy).prev_D0 i j = _
    rw [SaveDensity_prev_D0]
    simp only [hi, hj, and_self, if_true]
    rfl
  · rw [Iterate_body_F0]
    simp only [hi, hj, and_self, if_true]

/-- Witness of C18 on the sample system, at the entry `(0,1)`. -/
theorem C18_snapshot_ordering_witness :
    (sampleHF.Iterate_body sampleEnv).prev_etot = -70 ∧
    (sampleHF.Iterate_body sampleEnv).prev_D0 0 1 = 2 ∧
    (sampleHF.Iterate_body sampleEnv).F0 0 1 = 55 / 2 := by
  obtain ⟨h1, h2, h3⟩ :=
    C18_snapshot_ordering sampleEnv sampleHF 0 1 (by decide) (by decide)
  refine ⟨?_, ?_, ?_⟩
  · rw [h1]
    rfl
  · rw [h2]
    simp [sampleHF, sampleSystem, mat2]
  · rw [h3]
    simp [sampleEnv, sampleEnvOf, sampleHF, sampleSystem, mat2, INDEX, sum_range_succ]
    norm_num

/-! ## Symmetry of the density and Fock matrices -/

theorem Set_DensityMatrix_symm {R : Type} [LinearOrderedField R] (env : Env R)
    (h : HartreeFock R) (i j : Nat) (hi : i < env.NUM_ORB) (hj : j < env.NUM_ORB) :
    (h.Set_DensityMatrix env).D0 i j = (h.Set_DensityMatrix env).D0 j i := by
  rw [Set_DensityMatrix_D0]
  simp only [hi, hj, and_self, if_true]
  exact sum_congr rfl (fun m _ => mul_comm _ _)

theorem Set_Fock_symm {R : Type} [LinearOrderedField R] (env : Env R) (h : HartreeFock R)
    (hH : ∀ i j, i < env.NUM_ORB → j < env.NUM_ORB → h.Hcore i j = h.Hcore j i)
    (hD : ∀ i j, i < env.NUM_ORB → j < env.NUM_ORB → h.D0 i j = h.D0 j i)
    (i j : Nat) (hi : i < env.NUM_ORB) (hj : j < env.NUM_ORB) :
    (h.Set_Fock env).F0 i j = (h.Set_Fock env).F0 j i := by
  rw [Set_Fock_entry]
  simp only [hi, hj, and_self, if_true]
  rw [hH i j hi hj]
  congr 1
  rw [sum_comm]
  refine sum_congr rfl (fun l hl => sum_congr rfl (fun k hk => ?_))
  rw [hD k l (mem_range.1 hk) (mem_range.1 hl), INDEX_comm i j, INDEX_comm k l,
    INDEX_comm (INDEX i k) (INDEX j l)]

/-- C19: `Set_DensityMatrix` always leaves a symmetric `D0`; when `Hcore` and `D0` are
symmetric, `Set_Fock` leaves a symmetric `F0`; hence, starting from symmetric `Hcore`
and `D0`, after every number `n + 1` of iteration steps (loop test, then loop body)
both `D0` and `F0` are symmetric.  All entries are taken below `N`. -/
theorem C19_symmetry_invariant {R : Type} [LinearOrderedField R] (env : Env R)
    (h : HartreeFock R) :
    (∀ i j, i < env.NUM_ORB → j < env.NUM_ORB →
      (h.Set_DensityMatrix env).D0 i j = (h.Set_DensityMatrix env).D0 j i) ∧
    ((∀ i j, i < env.NUM_ORB → j < env.NUM_ORB → h.Hcore i j = h.Hcore j i) →
      (∀ i j, i < env.NUM_ORB → j < env.NUM_ORB → h.D0 i j = h.D0 j i) →
      (∀ i j, i < env.NUM_ORB → j < env.NUM_ORB →
        (h.Set_Fock env).F0 i j = (h.Set_Fock env).F0 j i) ∧
      ∀ n i j, i < env.NUM_ORB → j < env.NUM_ORB →
        ((fun s => (HartreeFock.Iterate_test env s).2.Iterate_body env)^[n + 1] h).D0 i j
          = ((fun s => (HartreeFock.Iterate_test env s).2.Iterate_body env)^[n + 1] h).D0 j i ∧
        ((fun s => (HartreeFock.Iterate_test env s).2.Iterate_body env)^[n + 1] h).F0 i j
          = ((fun s => (HartreeFock.Iterate_test env s).2.Iterate_body env)^[n + 1] h).F0 j i)
    := by
  refine ⟨Set_DensityMatrix_symm env h, fun hH hD => ⟨Set_Fock_symm env h hH hD, ?_⟩⟩
  -- one step from a state with symmetric `Hcore` and `D0`
  have hstep : ∀ s : HartreeFock R,
      (∀ i j, i < env.NUM_ORB → j < env.NUM_ORB → s.Hcore i j = s.Hcore j i) →
      (∀ i j, i < env.NUM_ORB → j < env.NUM_ORB → s.D0 i j = s.D0 j i) →
      (∀ i j, i < env.NUM_ORB → j < env.NUM_ORB →
        ((s.Iterate_test env).2.Iterate_body env).Hcore i j
          = ((s.Iterate_test env).2.Iterate_body env).Hcore j i) ∧
      (∀ i j, i < env.NUM_ORB → j < env.NUM_ORB →
        ((s.Iterate_test env).2.Iterate_body env).D0 i j
          = ((s.Iterate_test env).2.Iterate_body env).D0 j i) ∧
      (∀ i j, i < env.NUM_ORB → j < env.NUM_ORB →
        ((s.Iterate_test env).2.Iterate_body env).F0 i j
          = ((s.Iterate_test env).2.Iterate_body env).F0 j i) := by
    intro s hsH hsD
    have hHt : (s.Iterate_test env).2.Hcore = s.Hcore :=
      (SameIntegrals_Iterate_test env s).2.2.2.1
    have hDt : (s.Iterate_test env).2.D0 = s.D0 := by
      unfold HartreeFock.Iterate_test
      by_cases he : s.EConverg.1 = true
      · rw [if_pos he]
        rfl
      · rw [if_neg he]
        rfl
    refine ⟨?_, ?_, ?_⟩
    · intro i j hi hj
      show (s.Iterate_test env).2.Hcore i j = (s.Iterate_test env).2.Hcore j i
      rw [hHt]
      exact hsH i j hi hj
    · intro i j hi hj
      exact Set_DensityMatrix_symm env _ i j hi hj
    · intro i j hi hj
      show (HartreeFock.Set_Fock env
          ((s.Iterate_test env).2.SaveEnergy.SaveDensity env)).F0 i j
        = (HartreeFock.Set_Fock env
          ((s.Iterate_test env).2.SaveEnergy.SaveDensity env)).F0 j i
      apply Set_Fock_symm
      · intro a b ha hb
        show (s.Iterate_test env).2.Hcore a b = (s.Iterate_test env).2.Hcore b a
        rw [hHt]
        exact hsH a b ha hb
      · intro a b ha hb
        show (s.Iterate_test env).2.D0 a b = (s.Iterate_test env).2.D0 b a
        rw [hDt]
        exact hsD a b ha hb
      · exact hi
      · exact hj
  have hall : ∀ n,
      (∀ i j, i < env.NUM_ORB → j < env.NUM_ORB →
        ((fun s => (HartreeFock.Iterate_test env s).2.Iterate_body env)^[n + 1] h).Hcore i j
          = ((fun s => (HartreeFock.Iterate_test env s).2.Iterate_body env)^[n + 1] h).Hcore
              j i) ∧
      (∀ i j, i < env.NUM_ORB → j < env.NUM_ORB →
        ((fun s => (HartreeFock.Iterate_test env s).2.Iterate_body env)^[n + 1] h).D0 i j
          = ((fun s => (HartreeFock.Iterate_test env s).2.Iterate_body env)^[n + 1] h).D0
              j i) ∧
      (∀ i j, i < env.NUM_ORB → j < env.NUM_ORB →
        ((fun s => (HartreeFock.Iterate_test env s).2.Iterate_body env)^[n + 1] h).F0 i j
          = ((fun s => (HartreeFock.Iterate_test env s).2.Iterate_body env)^[n + 1] h).F0
              j i) := by
    intro n
    induction n with
    | zero => exact hstep h hH hD
    | succ n ih =>
      rw [Function.iterate_succ_apply']
      exact hstep _ ih.1 ih.2.1
  intro n i j hi hj
  exact ⟨(hall n).2.1 i j hi hj, (hall n).2.2 i j hi hj⟩

/-- Witness of C19 on the sample system, whose `Hcore` and `D0` are symmetric: the
entries `(0,1)` and `(1,0)` agree after `Set_DensityMatrix`, after `Set_Fock`, and after
two iteration steps. -/
theorem C19_symmetry_invariant_witness :
    (sampleHF.Set_DensityMatrix sampleEnv).D0 0 1
      = (sampleHF.Set_DensityMatrix sampleEnv).D0 1 0 ∧
    (sampleHF.Set_Fock sampleEnv).F0 0 1 = (sampleHF.Set_Fock sampleEnv).F0 1 0 ∧
    ((fun s => (HartreeFock.Iterate_test sampleEnv s).2.Iterate_body sampleEnv)^[2]
        sampleHF).F0 0 1
      = ((fun s => (HartreeFock.Iterate_test sampleEnv s).2.Iterate_body sampleEnv)^[2]
        sampleHF).F0 1 0 := by
  have hH : ∀ i j, i < sampleEnv.NUM_ORB → j < sampleEnv.NUM_ORB →
      sampleHF.Hcore i j = sampleHF.Hcore j i := by
    intro i j hi hj
    have hi2 : i < 2 := hi
    have hj2 : j < 2 := hj
    interval_cases i <;> interval_cases j <;> simp [sampleHF, sampleSystem, mat2]
  have hD : ∀ i j, i < sampleEnv.NUM_ORB → j < sampleEnv.NUM_ORB →
      sampleHF.D0 i j = sampleHF.D0 j i := by
    intro i j hi hj
    have hi2 : i < 2 := hi
    have hj2 : j < 2 := hj
    interval_cases i <;> interval_cases j <;> simp [sampleHF, sampleSystem, mat2]
  obtain ⟨h1, h2⟩ := C19_symmetry_invariant sampleEnv sampleHF
  obtain ⟨h3, h4⟩ := h2 hH hD
  exact ⟨h1 0 1 (by decide) (by decide), h3 0 1 (by decide) (by decide),
    (h4 1 0 1 (by decide) (by decide)).2⟩

/-! ## The MP2 energy -/

theorem forRange_eq_forLoop {σ : Type} (lo hi : Nat) (body : Nat → σ → σ) (s : σ) :
    forRange lo hi body s = forLoop (hi - lo) (fun x acc => body (lo + x) acc) s := by
  unfold forRange forLoop
  rw [List.range'_eq_map_range, List.foldl_map]

/-- A loop from `lo` to `hi` that adds `f x` to an accumulator adds the sum of the
`f x` over `lo ≤ x < hi`. -/
theorem forRange_sum {R : Type} [Ring R] (f : Nat → R) (g : Nat → R → R)
    (hg : ∀ x a, g x a = a + f x) (lo hi : Nat) (a : R) :
    forRange lo hi g a = a + ∑ x in Ico lo hi, f x := by
  rw [forRange_eq_forLoop, forLoop_sum (fun x => f (lo + x)) _ (fun x a => hg (lo + x) a),
    Finset.sum_Ico_eq_sum_range]

/-- The loop `for i < n: v(i) = w i`. -/
theorem forLoop_setAt {R : Type} (w : Nat → R) (n : Nat) (v : Vec R) :
    forLoop n (fun i E => setAt E i (w i)) v = fun a => if a < n then w a else v a := by
  induction n with
  | zero => funext a; simp [forLoop_zero]
  | succ n ih =>
    rw [forLoop_succ, ih]
    funext a
    rcases Nat.lt_trichotomy a n with ha | ha | ha
    · have h1 : a ≠ n := Nat.ne_of_lt ha
      have h2 : a < n + 1 := Nat.lt_succ_of_lt ha
      simp [setAt, h1, h2, ha]
    · subst ha
      simp [setAt]
    · have h1 : a ≠ n := Nat.ne_of_gt ha
      have h2 : ¬ a < n + 1 := by omega
      have h3 : ¬ a < n := by omega
      simp [setAt, h1, h2, h3]

/-- The value returned by `MP2_Energy`, in the order of its loops `i, a, j, b`. -/
theorem MP2_Energy_value {R : Type} [LinearOrderedField R] (env : Env R) (h : HartreeFock R) :
    (h.MP2_Energy env).1 =
      ∑ i in range env.NUM_OCC, ∑ a in Ico env.NUM_OCC env.NUM_ORB,
        ∑ j in range env.NUM_OCC, ∑ b in Ico env.NUM_OCC env.NUM_ORB,
          h.TEI_MO (INDEX (INDEX i a) (INDEX j b))
            * (2 * h.TEI_MO (INDEX (INDEX i a) (INDEX j b))
                - h.TEI_MO (INDEX (INDEX i b) (INDEX j a)))
            / (h.E i + h.E j - h.E a - h.E b) := by
  show forLoop env.NUM_OCC _ 0 = _
  rw [forLoop_sum (fun i => ∑ a in Ico env.NUM_OCC env.NUM_ORB,
        ∑ j in range env.NUM_OCC, ∑ b in Ico env.NUM_OCC env.NUM_ORB,
          h.TEI_MO (INDEX (INDEX i a) (INDEX j b))
            * (2 * h.TEI_MO (INDEX (INDEX i a) (INDEX j b))
                - h.TEI_MO (INDEX (INDEX i b) (INDEX j a)))
            / (h.E i + h.E j - h.E a - h.E b)), zero_add]
  intro i acc
  apply forRange_sum (fun a => ∑ j in range env.NUM_OCC, ∑ b in Ico env.NUM_OCC env.NUM_ORB,
          h.TEI_MO (INDEX (INDEX i a) (INDEX j b))
            * (2 * h.TEI_MO (INDEX (INDEX i a) (INDEX j b))
                - h.TEI_MO (INDEX (INDEX i b) (INDEX j a)))
            / (h.E i + h.E j - h.E a - h.E b))
  intro a acc
  apply forLoop_sum (fun j => ∑ b in Ico env.NUM_OCC env.NUM_ORB,
          h.TEI_MO (INDEX (INDEX i a) (INDEX j b))
            * (2 * h.TEI_MO (INDEX (INDEX i a) (INDEX j b))
                - h.TEI_MO (INDEX (INDEX i b) (INDEX j a)))
            / (h.E i + h.E j - h.E a - h.E b))
  intro j acc
  apply forRange_sum (fun b =>
          h.TEI_MO (INDEX (INDEX i a) (INDEX j b))
            * (2 * h.TEI_MO (INDEX (INDEX i a) (INDEX j b))
                - h.TEI_MO (INDEX (INDEX i b) (INDEX j a)))
            / (h.E i + h.E j - h.E a - h.E b))
  intro b acc
  rfl

/-- The orbital energies stored by `Set_OrbitalEnergy`. -/
theorem Set_OrbitalEnergy_E {R : Type} [LinearOrderedField R] (env : Env R)
    (h : HartreeFock R) :
    (h.Set_OrbitalEnergy env).E = fun a => if a < env.NUM_ORB then h.FMO a a else h.E a :=
  forLoop_setAt (fun i => h.FMO i i) env.NUM_ORB h.E

/-- C11: `MP2_Energy` returns
`Σ_{i,j<N_occ} Σ_{N_occ≤a,b<N} TEI_MO[iajb] * (2*TEI_MO[iajb] - TEI_MO[ibja]) / (E(i)+E(j)-E(a)-E(b))`
with `iajb = INDEX(INDEX(i,a),INDEX(j,b))`, `ibja = INDEX(INDEX(i,b),INDEX(j,a))`; the
member `EMP2` holds the same value and its previous contents `e` do not enter; in
`MP2_Correction` the vector `E` read by `MP2_Energy` is the diagonal of
`C0^T * F0 * C0`, and `EMP2` is set to the returned value. -/
theorem C11_MP2_Energy_formula {R : Type} [LinearOrderedField R] (env : Env R)
    (h : HartreeFock R) :
    (h.MP2_Energy env).1 =
      ∑ i in range env.NUM_OCC, ∑ j in range env.NUM_OCC,
        ∑ a in Ico env.NUM_OCC env.NUM_ORB, ∑ b in Ico env.NUM_OCC env.NUM_ORB,
          h.TEI_MO (INDEX (INDEX i a) (INDEX j b))
            * (2 * h.TEI_MO (INDEX (INDEX i a) (INDEX j b))
                - h.TEI_MO (INDEX (INDEX i b) (INDEX j a)))
            / (h.E i + h.E j - h.E a - h.E b) ∧
    (h.MP2_Energy env).2.EMP2 = (h.MP2_Energy env).1 ∧
    (∀ e : R, (HartreeFock.MP2_Energy env { h with EMP2 := e }).1 = (h.MP2_Energy env).1) ∧
    (h.MP2_Correction env).EMP2 =
      (HartreeFock.MP2_Energy env
        (((h.MOBasisFock env).Set_OrbitalEnergy env).TEI_Transform_N8 env)).1 ∧
    ∀ i, i < env.NUM_ORB →
      (((h.MOBasisFock env).Set_OrbitalEnergy env).TEI_Transform_N8 env).E i =
        matMul env.NUM_ORB (matMul env.NUM_ORB (transpose h.C0) h.F0) h.C0 i i := by
  refine ⟨?_, rfl, fun e => rfl, ?_, ?_⟩
  · rw [MP2_Energy_value]
    refine sum_congr rfl (fun i _ => ?_)
    rw [sum_comm]
  · unfold HartreeFock.MP2_Correction
    rfl
  · intro i hi
    show ((h.MOBasisFock env).Set_OrbitalEnergy env).E i = _
    rw [Set_OrbitalEnergy_E]
    simp only [hi, if_true]
    rfl

/-- Witness of C11: in `MP2_Correction` on the sample system the orbital energy `E(1)`
is the entry `(1,1)` of `C0^T * F0 * C0`. -/
theorem C11_MP2_Energy_formula_witness :
    (((sampleHF.MOBasisFock sampleEnv).Set_OrbitalEnergy sampleEnv).TEI_Transform_N8
        sampleEnv).E 1 = 276 := by
  rw [(C11_MP2_Energy_formula sampleEnv sampleHF).2.2.2.2 1 (by decide)]
  simp [sampleEnv, sampleEnvOf, sampleHF, sampleSystem, mat2, matMul, transpose,
    sum_range_succ]
  norm_num

/-! ## Vanishing two-electron integrals -/

/-- The compressed address of four orbital indices below `N` lies below `M`. -/
theorem N8_address_lt (N p q r s : Nat) (hp : p < N) (hq : q < N) (hr : r < N) (hs : s < N) :
    INDEX (INDEX p q) (INDEX r s) < (N * (N + 1) / 2) * (N * (N + 1) / 2 + 1) / 2 := by
  obtain ⟨t, ht, ha, _⟩ := @N8_representative ℤ _ N (fun _ _ => 0) (fun _ => 0) p q r s
    hp hq hr hs
  obtain ⟨n, hn⟩ := List.mem_iff_get.1 ht
  have hpos : N8_address t = n.val := by
    rw [← hn]
    exact N8_tuples_get_address N n.val n.isLt
  have hlt : n.val < (N * (N + 1) / 2) * (N * (N + 1) / 2 + 1) / 2 := by
    rw [← N8_tuples_length]
    exact n.isLt
  have : INDEX (INDEX p q) (INDEX r s) = n.val := ha.symm.trans hpos
  omega

theorem N8_sum_zero {R : Type} [CommRing R] (N : Nat) (C0 : Mat R) (TEI : Vec R)
    (hTEI : ∀ a, a < (N * (N + 1) / 2) * (N * (N + 1) / 2 + 1) / 2 → TEI a = 0)
    (t : Nat × Nat × Nat × Nat) : N8_sum N C0 TEI t = 0 := by
  unfold N8_sum
  refine sum_eq_zero (fun p hp => sum_eq_zero (fun q hq => sum_eq_zero (fun r hr =>
    sum_eq_zero (fun s hs => ?_))))
  rw [hTEI _ (N8_address_lt N p q r s (mem_range.1 hp) (mem_range.1 hq) (mem_range.1 hr)
    (mem_range.1 hs)), mul_zero]

theorem TEI_Transform_N8_zero {R : Type} [LinearOrderedField R] (env : Env R)
    (h : HartreeFock R)
    (hTEI : ∀ a, a < (env.NUM_ORB * (env.NUM_ORB + 1) / 2)
      * (env.NUM_ORB * (env.NUM_ORB + 1) / 2 + 1) / 2 → h.TEI a = 0) (a : Nat) :
    (h.TEI_Transform_N8 env).TEI_MO a = 0 := by
  by_cases ha : a < (N8_tuples env.NUM_ORB).length
  · rw [(TEI_Transform_N8_at env h).1 a ha]
    exact N8_sum_zero env.NUM_ORB h.C0 h.TEI hTEI _
  · exact (TEI_Transform_N8_at env h).2 a (by omega)

theorem MP2_Energy_zero {R : Type} [LinearOrderedField R] (env : Env R) (h : HartreeFock R)
    (hz : ∀ a, h.TEI_MO a = 0) : (h.MP2_Energy env).1 = 0 := by
  rw [MP2_Energy_value]
  refine sum_eq_zero (fun i _ => sum_eq_zero (fun a _ => sum_eq_zero (fun j _ =>
    sum_eq_zero (fun b _ => ?_))))
  rw [hz, zero_mul, zero_div]

/-- C12: if every AO two-electron integral `TEI[a]`, `a < M`, is zero, then for every
`C0` the array `TEI_MO` left by `TEI_Transform_N8` is zero everywhere; `MP2_Energy`
run on the transformed object returns exactly `0` whenever the denominators
`E(i)+E(j)-E(a)-E(b)` of the orbital energies `E` it reads are non-zero
(`TEI_Transform_N8` leaves `E` alone); and `MP2_Correction` sets `EMP2` to exactly `0`
whenever the denominators of the orbital energies it computes itself, the vector `E`
that `Set_OrbitalEnergy` stores and `MP2_Energy` then reads, are non-zero. -/
theorem C12_zero_integrals {R : Type} [LinearOrderedField R] (env : Env R) (h : HartreeFock R)
    (hTEI : ∀ a, a < (env.NUM_ORB * (env.NUM_ORB + 1) / 2)
      * (env.NUM_ORB * (env.NUM_ORB + 1) / 2 + 1) / 2 → h.TEI a = 0) :
    (∀ a, (h.TEI_Transform_N8 env).TEI_MO a = 0) ∧
    ((h.TEI_Transform_N8 env).E = h.E ∧
      ((∀ i j a b, i < env.NUM_OCC → j < env.NUM_OCC →
          env.NUM_OCC ≤ a → a < env.NUM_ORB → env.NUM_OCC ≤ b → b < env.NUM_ORB →
          h.E i + h.E j - h.E a - h.E b ≠ 0) →
        (HartreeFock.MP2_Energy env (h.TEI_Transform_N8 env)).1 = 0)) ∧
    ((∀ i j a b, i < env.NUM_OCC → j < env.NUM_OCC →
        env.NUM_OCC ≤ a → a < env.NUM_ORB → env.NUM_OCC ≤ b → b < env.NUM_ORB →
        (((h.MOBasisFock env).Set_OrbitalEnergy env).TEI_Transform_N8 env).E i
          + (((h.MOBasisFock env).Set_OrbitalEnergy env).TEI_Transform_N8 env).E j
          - (((h.MOBasisFock env).Set_OrbitalEnergy env).TEI_Transform_N8 env).E a
          - (((h.MOBasisFock env).Set_OrbitalEnergy env).TEI_Transform_N8 env).E b ≠ 0) →
      (h.MP2_Correction env).EMP2 = 0 ∧
      (h.MP2_Correction env).E
        = (((h.MOBasisFock env).Set_OrbitalEnergy env).TEI_Transform_N8 env).E) := by
  refine ⟨TEI_Transform_N8_zero env h hTEI,
    ⟨rfl, fun _ => MP2_Energy_zero env _ (TEI_Transform_N8_zero env h hTEI)⟩, fun _ => ?_⟩
  have hc : (h.MP2_Correction env).EMP2 =
      (HartreeFock.MP2_Energy env
        (((h.MOBasisFock env).Set_OrbitalEnergy env).TEI_Transform_N8 env)).1 := by
    unfold HartreeFock.MP2_Correction
    rfl
  have hE : (h.MP2_Correction env).E
      = (((h.MOBasisFock env).Set_OrbitalEnergy env).TEI_Transform_N8 env).E := by
    unfold HartreeFock.MP2_Correction
    rfl
  refine ⟨?_, hE⟩
  rw [hc]
  exact MP2_Energy_zero env _
    (TEI_Transform_N8_zero env ((h.MOBasisFock env).Set_OrbitalEnergy env) hTEI)

/-- The orbital energies `MP2_Correction` computes for the converged scenario object:
the diagonal `(1, 2)` of `C0^T * F0 * C0`. -/
theorem scenarioHF_orbital_energies (i : Nat) (hi : i < 2) :
    (((scenarioHF.MOBasisFock sampleEnv).Set_OrbitalEnergy sampleEnv).TEI_Transform_N8
      sampleEnv).E i = (i : ℚ) + 1 := by
  show ((scenarioHF.MOBasisFock sampleEnv).Set_OrbitalEnergy sampleEnv).E i = _
  rw [Set_OrbitalEnergy_E]
  have hi2 : i < sampleEnv.NUM_ORB := hi
  simp only [hi2, if_true]
  show matMul 2 (matMul 2 (transpose scenarioHF.C0) scenarioHF.F0) scenarioHF.C0 i i = _
  interval_cases i <;>
    norm_num [matMul, transpose, sum_range_succ, scenarioHF, mat2]

/-- Witness of C12: the 2 × 2 scenario (`S` the identity, `Hcore = diag(1,2)`, one
occupied orbital, zero integrals).  The stored orbital energies and the ones
`MP2_Correction` computes are both `(1, 2)`, so the only denominator is `1+1-2-2`. -/
theorem C12_zero_integrals_witness :
    (scenarioHF.TEI_Transform_N8 sampleEnv).TEI_MO 3 = 0 ∧
    (HartreeFock.MP2_Energy sampleEnv (scenarioHF.TEI_Transform_N8 sampleEnv)).1 = 0 ∧
    (scenarioHF.MP2_Correction sampleEnv).EMP2 = 0 := by
  have hw := C12_zero_integrals sampleEnv scenarioHF (fun a _ => rfl)
  refine ⟨hw.1 3, hw.2.1.2 ?_, (hw.2.2 ?_).1⟩
  · intro i j a b hi hj ha1 ha2 hb1 hb2
    have hi1 : i < 1 := hi
    have hj1 : j < 1 := hj
    have ha3 : 1 ≤ a := ha1
    have ha4 : a < 2 := ha2
    have hb3 : 1 ≤ b := hb1
    have hb4 : b < 2 := hb2
    have hi0 : i = 0 := by omega
    have hj0 : j = 0 := by omega
    have ha0 : a = 1 := by omega
    have hb0 : b = 1 := by omega
    subst hi0 hj0 ha0 hb0
    simp [scenarioHF]
  · intro i j a b hi hj ha1 ha2 hb1 hb2
    have hi1 : i < 1 := hi
    have hj1 : j < 1 := hj
    have ha3 : 1 ≤ a := ha1
    have ha4 : a < 2 := ha2
    have hb3 : 1 ≤ b := hb1
    have hb4 : b < 2 := hb2
    have hi0 : i = 0 := by omega
    have hj0 : j = 0 := by omega
    have ha0 : a = 1 := by omega
    have hb0 : b = 1 := by omega
    subst hi0 hj0 ha0 hb0
    rw [scenarioHF_orbital_energies 0 (by decide), scenarioHF_orbital_energies 1 (by decide)]
    norm_num

/-! ## The running counter of the transformation -/

/-- The tuples visited by the loops of `TEI_Transform_N8` are those admitted by the
loop bounds. -/
theorem N8_tuples_mem (N : Nat) (t : Nat × Nat × Nat × Nat) :
    t ∈ N8_tuples N ↔
      t.1 < N ∧ t.2.1 ≤ t.1 ∧ t.2.2.1 ≤ t.1 ∧
        t.2.2.2 ≤ (if t.1 = t.2.2.1 then t.2.1 else t.2.2.1) := by
  constructor
  · intro ht
    obtain ⟨i, hi, ht1⟩ := List.mem_flatMap.1 ht
    obtain ⟨j, hj, ht2⟩ := List.mem_flatMap.1 ht1
    obtain ⟨k, hk, ht3⟩ := List.mem_flatMap.1 ht2
    obtain ⟨l, hl, rfl⟩ := List.mem_map.1 ht3
    exact ⟨List.mem_range.1 hi, Nat.lt_succ_iff.1 (List.mem_range.1 hj),
      Nat.lt_succ_iff.1 (List.mem_range.1 hk), Nat.lt_succ_iff.1 (List.mem_range.1 hl)⟩
  · obtain ⟨i, j, k, l⟩ := t
    rintro ⟨hi, hj, hk, hl⟩
    exact List.mem_flatMap.2 ⟨i, List.mem_range.2 hi,
      List.mem_flatMap.2 ⟨j, List.mem_range.2 (Nat.lt_succ_of_le hj),
        List.mem_flatMap.2 ⟨k, List.mem_range.2 (Nat.lt_succ_of_le hk),
          List.mem_map.2 ⟨l, List.mem_range.2 (Nat.lt_succ_of_le hl), rfl⟩⟩⟩⟩

/-- The nested loops are one pass of the loop body over the visited tuples. -/
theorem TEI_Transform_N8_loops_pass {R : Type} [LinearOrderedField R] (N : Nat) (C0 : Mat R)
    (TEI : Vec R) (start : Vec R × Nat) :
    TEI_Transform_N8_loops N C0 TEI start =
      (N8_tuples N).foldl
        (fun st t => TEI_Transform_N8_body N C0 TEI t.1 t.2.1 t.2.2.1 t.2.2.2 st) start := by
  unfold TEI_Transform_N8_loops N8_tuples N8_row forLoop
  simp only [foldl_flatMap_eq, List.foldl_map]

theorem TEI_Transform_N8_body_fun {R : Type} [LinearOrderedField R] (N : Nat) (C0 : Mat R)
    (TEI : Vec R) :
    (fun (st : Vec R × Nat) (t : Nat × Nat × Nat × Nat) =>
        TEI_Transform_N8_body N C0 TEI t.1 t.2.1 t.2.2.1 t.2.2.2 st)
      = fun st t => (setAt st.1 st.2 (st.1 st.2 + N8_sum N C0 TEI t), st.2 + 1) := by
  funext st t
  exact TEI_Transform_N8_body_eq N C0 TEI t.1 t.2.1 t.2.2.1 t.2.2.2 st

/-- C20: the loops of `TEI_Transform_N8` are one pass of their body over the tuples
admitted by the bounds `i < N`, `j <= i`, `k <= i`, `l <= (i == k ? j : k)`; when the
`n`-th of these tuples is reached, the counter `ijkl` (started at `0`) equals its
address `INDEX(INDEX(i,j),INDEX(k,l))`; the addresses of the visited tuples are
`0, 1, ..., M-1` in this order, with `P = N*(N+1)/2`, `M = P*(P+1)/2`; the counter ends
at `M`, and no entry at a position `≥ M` is written. -/
theorem C20_counter_is_address {R : Type} [LinearOrderedField R] (N : Nat) (C0 : Mat R)
    (TEI : Vec R) (T : Vec R) :
    TEI_Transform_N8_loops N C0 TEI (T, 0) =
      (N8_tuples N).foldl
        (fun st t => TEI_Transform_N8_body N C0 TEI t.1 t.2.1 t.2.2.1 t.2.2.2 st) (T, 0) ∧
    (∀ t : Nat × Nat × Nat × Nat, t ∈ N8_tuples N ↔
      t.1 < N ∧ t.2.1 ≤ t.1 ∧ t.2.2.1 ≤ t.1 ∧
        t.2.2.2 ≤ (if t.1 = t.2.2.1 then t.2.1 else t.2.2.1)) ∧
    (∀ n (hn : n < (N8_tuples N).length),
      (((N8_tuples N).take n).foldl
        (fun st t => TEI_Transform_N8_body N C0 TEI t.1 t.2.1 t.2.2.1 t.2.2.2 st) (T, 0)).2
        = N8_address ((N8_tuples N).get ⟨n, hn⟩)) ∧
    (N8_tuples N).map N8_address
      = List.range ((N * (N + 1) / 2) * (N * (N + 1) / 2 + 1) / 2) ∧
    (TEI_Transform_N8_loops N C0 TEI (T, 0)).2
      = (N * (N + 1) / 2) * (N * (N + 1) / 2 + 1) / 2 ∧
    ∀ a, (N * (N + 1) / 2) * (N * (N + 1) / 2 + 1) / 2 ≤ a →
      (TEI_Transform_N8_loops N C0 TEI (T, 0)).1 a = T a := by
  refine ⟨TEI_Transform_N8_loops_pass N C0 TEI (T, 0), N8_tuples_mem N, ?_,
    N8_tuples_address N, ?_, ?_⟩
  · intro n hn
    rw [TEI_Transform_N8_body_fun, (foldl_counter (N8_sum N C0 TEI) _ T 0).1,
      N8_tuples_get_address, List.length_take, Nat.zero_add]
    exact Nat.min_eq_left (Nat.le_of_lt hn)
  · rw [TEI_Transform_N8_loops_eq, (foldl_counter (N8_sum N C0 TEI) _ T 0).1,
      N8_tuples_length, Nat.zero_add]
  · intro a ha
    rw [TEI_Transform_N8_loops_eq]
    refine (foldl_counter (N8_sum N C0 TEI) _ T 0).2.2 a (Or.inr ?_)
    rw [N8_tuples_length, Nat.zero_add]
    exact ha

/-- Witness of C20 for two orbitals: the tuple reached fifth is `(1,1,1,0)`, and the
counter then holds its address `4`. -/
theorem C20_counter_is_address_witness :
    (N8_tuples 2).get ⟨4, by decide⟩ = (1, 1, 1, 0) ∧
    (((N8_tuples 2).take 4).foldl
      (fun st t => TEI_Transform_N8_body 2 sampleHF.C0 sampleHF.TEI
        t.1 t.2.1 t.2.2.1 t.2.2.2 st) (sampleHF.TEI_MO, 0)).2
      = INDEX (INDEX 1 1) (INDEX 1 0) := by
  refine ⟨by decide, ?_⟩
  rw [(C20_counter_is_address 2 sampleHF.C0 sampleHF.TEI sampleHF.TEI_MO).2.2.1 4
    (by decide)]
  decide

/-! ## Reordering of eigenvector columns -/

/-- A sum over `m < n` is unchanged when `m` is replaced by `σ m`, for `σ` an injective
map of `0, ..., n-1` into itself. -/
theorem sum_range_perm {R : Type} [CommRing R] (n : Nat) (σ : Nat → Nat) (f : Nat → R)
    (hocc : ∀ m, m < n → σ m < n)
    (hinj : ∀ m k, m < n → k < n → σ m = σ k → m = k) :
    ∑ m in range n, f (σ m) = ∑ m in range n, f m := by
  have hinjOn : ∀ x ∈ range n, ∀ y ∈ range n, σ x = σ y → x = y :=
    fun x hx y hy hxy => hinj x y (mem_range.1 hx) (mem_range.1 hy) hxy
  have himg : (range n).image σ = range n := by
    apply Finset.eq_of_subset_of_card_le
    · intro x hx
      obtain ⟨m, hm, rfl⟩ := Finset.mem_image.1 hx
      exact mem_range.2 (hocc m (mem_range.1 hm))
    · rw [Finset.card_image_of_injOn (fun x hx y hy hxy => hinjOn x hx y hy hxy)]
  rw [← Finset.sum_image hinjOn, himg]

/-- The total energy after `Set_DensityMatrix` and `Set_Energy`. -/
theorem Set_DensityMatrix_Set_Energy_etot {R : Type} [LinearOrderedField R] (env : Env R)
    (h : HartreeFock R) :
    ((h.Set_DensityMatrix env).Set_Energy env).etot =
      (∑ i in range env.NUM_ORB, ∑ j in range env.NUM_ORB,
        (∑ m in range env.NUM_OCC,
          matMul env.NUM_ORB h.SOM (env.eigenvectors h.F0) i m
            * matMul env.NUM_ORB h.SOM (env.eigenvectors h.F0) j m)
          * (h.Hcore i j + h.F0 i j)) + h.enuc := by
  show ((h.Set_DensityMatrix env).Set_Energy env).eelec + h.enuc = _
  rw [Set_Energy_eelec]
  congr 1
  refine sum_congr rfl (fun i hi => sum_congr rfl (fun j hj => ?_))
  rw [Set_DensityMatrix_D0]
  simp only [mem_range.1 hi, mem_range.1 hj, and_self, if_true]
  rfl

/-- C15, as stated, fails when the equal eigenvalues straddle the occupied/virtual
boundary: for the Fock matrix `1` (eigenvalues `1, 1`) with `Hcore = diag(1, 2)` and
one occupied orbital, the eigenvector orders `e0, e1` and `e1, e0` give the total
energies `5` and `6`. -/
theorem C15_degenerate_reordering_counterexample :
    sampleEnv.eigenvalues degenerateHF.F0 0 = sampleEnv.eigenvalues degenerateHF.F0 1 ∧
    swappedEnv.eigenvalues degenerateHF.F0 = sampleEnv.eigenvalues degenerateHF.F0 ∧
    (∀ i m, i < 2 → m < 2 → swappedEnv.eigenvectors degenerateHF.F0 i m
      = sampleEnv.eigenvectors degenerateHF.F0 i (if m = 0 then 1 else 0))
    ∧ ((degenerateHF.Set_DensityMatrix sampleEnv).Set_Energy sampleEnv).etot = 5 ∧
    ((degenerateHF.Set_DensityMatrix swappedEnv).Set_Energy swappedEnv).etot = 6 := by
  refine ⟨?_, rfl, ?_, ?_, ?_⟩
  · simp [sampleEnv, sampleEnvOf, degenerateHF, mat2]
  · intro i m hi hm
    show (if i + m = 1 then (1 : ℚ) else 0) = if i = (if m = 0 then 1 else 0) then 1 else 0
    interval_cases i <;> interval_cases m <;> simp
  · rw [Set_DensityMatrix_Set_Energy_etot]
    simp [sampleEnv, sampleEnvOf, degenerateHF, sampleHF, sampleSystem, mat2, matMul,
      sum_range_succ]
    norm_num
  · rw [Set_DensityMatrix_Set_Energy_etot]
    simp [swappedEnv, sampleEnv, sampleEnvOf, degenerateHF, sampleHF, sampleSystem, mat2,
      matMul, sum_range_succ]
    norm_num

/-- C15, amended: if two solvers return, for the same Fock matrix, eigenvector
matrices whose occupied columns `m < N_occ` differ by a permutation `σ` of the occupied
columns among themselves, then `Set_DensityMatrix` followed by `Set_Energy`
yields the same total energy `etot`. -/
theorem C15_energy_invariant_occupied_permutation {R : Type} [LinearOrderedField R]
    (env1 env2 : Env R) (h : HartreeFock R) (σ : Nat → Nat)
    (hN : env2.NUM_ORB = env1.NUM_ORB) (hO : env2.NUM_OCC = env1.NUM_OCC)
    (hperm : ∀ i m, i < env1.NUM_ORB → m < env1.NUM_OCC →
      env2.eigenvectors h.F0 i m = env1.eigenvectors h.F0 i (σ m))
    (hocc : ∀ m, m < env1.NUM_OCC → σ m < env1.NUM_OCC)
    (hinj : ∀ m k, m < env1.NUM_OCC → k < env1.NUM_OCC → σ m = σ k → m = k) :
    ((h.Set_DensityMatrix env2).Set_Energy env2).etot
      = ((h.Set_DensityMatrix env1).Set_Energy env1).etot := by
  rw [Set_DensityMatrix_Set_Energy_etot, Set_DensityMatrix_Set_Energy_etot, hN, hO]
  congr 1
  refine sum_congr rfl (fun i _ => sum_congr rfl (fun j _ => ?_))
  congr 1
  have hC : ∀ a m, m < env1.NUM_OCC →
      matMul env1.NUM_ORB h.SOM (env2.eigenvectors h.F0) a m
        = matMul env1.NUM_ORB h.SOM (env1.eigenvectors h.F0) a (σ m) := by
    intro a m hm
    unfold matMul
    exact sum_congr rfl (fun k hk => by rw [hperm k m (mem_range.1 hk) hm])
  rw [sum_congr rfl (fun m hm => by rw [hC i m (mem_range.1 hm), hC j m (mem_range.1 hm)])]
  exact sum_range_perm env1.NUM_OCC σ
    (fun m => matMul env1.NUM_ORB h.SOM (env1.eigenvectors h.F0) i m
      * matMul env1.NUM_ORB h.SOM (env1.eigenvectors h.F0) j m) hocc hinj

/-- Witness of C15 (amended): with both orbitals occupied, exchanging the two
eigenvector columns of the degenerate Fock matrix leaves the total energy unchanged. -/
theorem C15_energy_invariant_occupied_permutation_witness :
    ((degenerateHF.Set_DensityMatrix fullSwappedEnv).Set_Energy fullSwappedEnv).etot
      = ((degenerateHF.Set_DensityMatrix fullEnv).Set_Energy fullEnv).etot :=
  C15_energy_invariant_occupied_permutation fullEnv fullSwappedEnv degenerateHF
    (fun m => 1 - m) rfl rfl
    (by
      intro i m hi hm
      have hi2 : i < 2 := hi
      have hm2 : m < 2 := hm
      show (if i + m = 1 then (1 : ℚ) else 0) = if i = 1 - m then 1 else 0
      interval_cases i <;> interval_cases m <;> simp)
    (by
      intro m hm
      have hm2 : m < 2 := hm
      show 1 - m < 2
      omega)
    (by
      intro m k hm hk hmk
      have hm2 : m < 2 := hm
      have hk2 : k < 2 := hk
      have hmk2 : 1 - m = 1 - k := hmk
      omega)

/-! ## The matrix handed to the eigensolver -/

/-- In an iteration step `Diagonlize` receives the matrix `F0` as `Set_Fock` left it:
`C0` is `SOM` times the eigenvectors of that matrix, and `e0` carries its eigenvalues. -/
theorem Iterate_body_eigensolver {R : Type} [LinearOrderedField R] (env : Env R)
    (h : HartreeFock R) :
    (h.Iterate_body env).C0
      = matMul env.NUM_ORB h.SOM (env.eigenvectors (h.Iterate_body env).F0) ∧
    ∀ i, i < env.NUM_ORB →
      (h.Iterate_body env).e0 i i = env.eigenvalues (h.Iterate_body env).F0 i := by
  refine ⟨rfl, fun i hi => ?_⟩
  show (Diagonlize env (h.Iterate_body env).F0 h.e0).1 i i = _
  rw [Diagonlize_eq]
  simp only [hi, and_self, if_true]

/-- C17 at a failing input: in one iteration step on the sample system
(`SOM = diag(1, 1/2)`) the rebuilt Fock matrix has `F(1,1) = 45` and
`(SOM^T * F * SOM)(1,1) = 45/4`; the eigensolver is handed `F` itself, so that the
eigenvalue entry `e0(1,1)` is the one of `F` (`45` for the sample solver, which reads
the diagonal) and not the one of `SOM^T * F * SOM`. -/
theorem C17_eigensolver_gets_untransformed_Fock :
    (sampleHF.Iterate_body sampleEnv).F0 1 1 = 45 ∧
    matMul 2 (matMul 2 (transpose sampleHF.SOM) (sampleHF.Iterate_body sampleEnv).F0)
      sampleHF.SOM 1 1 = 45 / 4 ∧
    (sampleHF.Iterate_body sampleEnv).C0
      = matMul 2 sampleHF.SOM (sampleEnv.eigenvectors (sampleHF.Iterate_body sampleEnv).F0) ∧
    (sampleHF.Iterate_body sampleEnv).e0 1 1
      = sampleEnv.eigenvalues (sampleHF.Iterate_body sampleEnv).F0 1 ∧
    (sampleHF.Iterate_body sampleEnv).e0 1 1 ≠
      sampleEnv.eigenvalues
        (matMul 2 (matMul 2 (transpose sampleHF.SOM) (sampleHF.Iterate_body sampleEnv).F0)
          sampleHF.SOM) 1 := by
  have hF11 : (sampleHF.Iterate_body sampleEnv).F0 1 1 = 45 := by
    rw [Iterate_body_F0]
    simp [sampleEnv, sampleEnvOf, sampleHF, sampleSystem, mat2, INDEX, sum_range_succ]
    norm_num
  have hT : matMul 2 (matMul 2 (transpose sampleHF.SOM) (sampleHF.Iterate_body sampleEnv).F0)
      sampleHF.SOM 1 1 = 45 / 4 := by
    simp only [matMul, transpose, sum_range_succ, sum_range_zero, zero_add, hF11]
    simp [sampleHF, sampleSystem, mat2]
    norm_num
  have he := (Iterate_body_eigensolver sampleEnv sampleHF).2 1 (by decide)
  refine ⟨hF11, hT, rfl, he, ?_⟩
  rw [he]
  show (sampleHF.Iterate_body sampleEnv).F0 1 1 ≠
    matMul 2 (matMul 2 (transpose sampleHF.SOM) (sampleHF.Iterate_body sampleEnv).F0)
      sampleHF.SOM 1 1
  rw [hF11, hT]
  norm_num

/-! ## The 2 × 2 scenario -/

/-- The lowest eigenvector of `diag(1, 2)` is `± e0`. -/
theorem eigen_diag12 {R : Type} [LinearOrderedField R] (M : Mat R) (lam : Vec R) (L : Mat R)
    (hM : ∀ i j, i < 2 → j < 2 → M i j = mat2 1 0 0 2 i j)
    (hsol : IsEigensolution 2 M lam L) : L 1 0 = 0 ∧ L 0 0 * L 0 0 = 1 := by
  obtain ⟨heig, horth, hasc⟩ := hsol
  have e00 := heig 0 0 (by decide) (by decide)
  have e10 := heig 1 0 (by decide) (by decide)
  have e01 := heig 0 1 (by decide) (by decide)
  have o00 := horth 0 0 (by decide) (by decide)
  have o01 := horth 0 1 (by decide) (by decide)
  have o11 := horth 1 1 (by decide) (by decide)
  have hasc01 := hasc 0 1 (by decide) (by decide)
  simp only [sum_range_succ, sum_range_zero, zero_add,
    hM 0 0 (by decide) (by decide), hM 0 1 (by decide) (by decide),
    hM 1 0 (by decide) (by decide), hM 1 1 (by decide) (by decide)] at e00 e10 e01 o00 o01 o11
  simp [mat2] at e00 e10 e01 o00 o01 o11
  have hy : L 1 0 = 0 := by
    by_contra hne
    have hl0 : lam 0 = 2 := by
      rcases e10 with h2 | h2
      · exact h2.symm
      · exact absurd h2 hne
    have hx : L 0 0 = 0 := by
      have h1 : L 0 0 = 2 * L 0 0 := by
        have := e00
        rw [hl0] at this
        exact this
      linarith
    have hw : L 1 1 = 0 := by
      rw [hx, zero_mul, zero_add] at o01
      rcases mul_eq_zero.1 o01 with h2 | h2
      · exact absurd h2 hne
      · exact h2
    have hz : L 0 1 ≠ 0 := by
      intro hz0
      rw [hz0, hw] at o11
      simp at o11
    have hl1 : lam 1 = 1 := by
      have h1 : (1 - lam 1) * L 0 1 = 0 := by linarith
      rcases mul_eq_zero.1 h1 with h2 | h2
      · linarith
      · exact absurd h2 hz
    rw [hl0, hl1] at hasc01
    linarith
  refine ⟨hy, ?_⟩
  rw [hy] at o00
  simpa using o00

/-- Orthonormal columns of a square matrix give orthonormal rows. -/
theorem rows_orthonormal {R : Type} [LinearOrderedField R] (n : Nat) (L : Mat R)
    (hL : ∀ m p, m < n → p < n → ∑ k in range n, L k m * L k p = if m = p then 1 else 0)
    (i j : Nat) (hi : i < n) (hj : j < n) :
    ∑ k in range n, L i k * L j k = if i = j then 1 else 0 := by
  have hLm : (toMatrix n L).transpose * toMatrix n L = 1 := by
    ext a b
    rw [Matrix.mul_apply, Matrix.one_apply]
    have := hL a.val b.val a.isLt b.isLt
    rw [Finset.sum_range] at this
    simp only [Matrix.transpose_apply, toMatrix, this, Fin.ext_iff]
  have hLm2 : toMatrix n L * (toMatrix n L).transpose = 1 := Matrix.mul_eq_one_comm.1 hLm
  have hent := congrFun (congrFun hLm2 ⟨i, hi⟩) ⟨j, hj⟩
  rw [Matrix.mul_apply, Matrix.one_apply] at hent
  rw [Finset.sum_range]
  simpa [toMatrix, Fin.ext_iff] using hent

/-- In the scenario `SymmetricOrth` stores the identity. -/
theorem scenario_SOM {R : Type} [LinearOrderedField R] (env : Env R) (h : HartreeFock R)
    (hN : env.NUM_ORB = 2)
    (hS : ∀ i j, i < 2 → j < 2 → h.S i j = if i = j then 1 else 0)
    (hsol : IsEigensolution 2 h.S (env.eigenvalues h.S) (env.eigenvectors h.S))
    (hp1 : env.pow 1 (-0.5) = 1) :
    ∃ h1 : HartreeFock R, h.SymmetricOrth env = Except.ok h1 ∧
      h1 = { h with SOM := h1.SOM } ∧
      ∀ i j, i < 2 → j < 2 → h1.SOM i j = mat2 1 0 0 1 i j := by
  refine ⟨_, SymmetricOrth_eq env h, rfl, ?_⟩
  intro i j hi hj
  obtain ⟨heig, horth, _⟩ := hsol
  -- both eigenvalues are `1`
  have hlam : ∀ m, m < 2 → env.eigenvalues h.S m = 1 := by
    intro m hm
    by_contra hne
    have hcol : ∀ a, a < 2 → env.eigenvectors h.S a m = 0 := by
      intro a ha
      have e := heig a m ha hm
      have hsum : ∑ k in range 2, h.S a k * env.eigenvectors h.S k m
          = env.eigenvectors h.S a m := by
        simp only [sum_range_succ, sum_range_zero, zero_add]
        interval_cases a
        · rw [hS 0 0 (by decide) (by decide), hS 0 1 (by decide) (by decide)]
          simp
        · rw [hS 1 0 (by decide) (by decide), hS 1 1 (by decide) (by decide)]
          simp
      rw [hsum] at e
      have h1 : (1 - env.eigenvalues h.S m) * env.eigenvectors h.S a m = 0 := by linarith
      rcases mul_eq_zero.1 h1 with h2 | h2
      · exact absurd (by linarith) hne
      · exact h2
    have o := horth m m hm hm
    simp only [sum_range_succ, sum_range_zero, zero_add, if_true,
      hcol 0 (by decide), hcol 1 (by decide)] at o
    simp at o
  show matMul env.NUM_ORB
      (matMul env.NUM_ORB (env.eigenvectors h.S)
        (fun a b => if a = b ∧ a < env.NUM_ORB
          then env.pow (env.eigenvalues h.S a) (-0.5) else 0))
      (transpose (env.eigenvectors h.S)) i j = _
  rw [SymmetricOrth_SOM_entry env (env.eigenvectors h.S)
    (fun a => env.pow (env.eigenvalues h.S a) (-0.5)) i j, hN]
  have hrow := rows_orthonormal 2 (env.eigenvectors h.S) horth i j hi hj
  have hterm : ∀ k ∈ range 2,
      env.eigenvectors h.S i k * env.pow (env.eigenvalues h.S k) (-0.5)
        * env.eigenvectors h.S j k
      = env.eigenvectors h.S i k * env.eigenvectors h.S j k := by
    intro k hk
    rw [hlam k (mem_range.1 hk), hp1, mul_one]
  rw [sum_congr rfl hterm, hrow]
  interval_cases i <;> interval_cases j <;> simp [mat2]

theorem scenario_InitialFock {R : Type} [LinearOrderedField R] (env : Env R)
    (h : HartreeFock R) (hN : env.NUM_ORB = 2)
    (hH : ∀ i j, i < 2 → j < 2 → h.Hcore i j = mat2 1 0 0 2 i j)
    (hSOM : ∀ i j, i < 2 → j < 2 → h.SOM i j = mat2 1 0 0 1 i j)
    (i j : Nat) (hi : i < 2) (hj : j < 2) :
    (h.Set_InitialFock env).F0 i j = mat2 1 0 0 2 i j := by
  show matMul env.NUM_ORB (matMul env.NUM_ORB (transpose h.SOM) h.Hcore) h.SOM i j = _
  rw [hN]
  simp only [matMul, transpose, sum_range_succ, sum_range_zero, zero_add,
    hH 0 0 (by decide) (by decide), hH 0 1 (by decide) (by decide),
    hH 1 0 (by decide) (by decide), hH 1 1 (by decide) (by decide)]
  interval_cases i <;> interval_cases j <;>
    simp [mat2, hSOM 0 0 (by decide) (by decide), hSOM 0 1 (by decide) (by decide),
      hSOM 1 0 (by decide) (by decide), hSOM 1 1 (by decide) (by decide)]

theorem scenario_density {R : Type} [LinearOrderedField R] (env : Env R) (h : HartreeFock R)
    (hN : env.NUM_ORB = 2) (hO : env.NUM_OCC = 1)
    (hSOM : ∀ i j, i < 2 → j < 2 → h.SOM i j = mat2 1 0 0 1 i j)
    (hF : ∀ i j, i < 2 → j < 2 → h.F0 i j = mat2 1 0 0 2 i j)
    (hsol : IsEigensolution 2 h.F0 (env.eigenvalues h.F0) (env.eigenvectors h.F0))
    (i j : Nat) (hi : i < 2) (hj : j < 2) :
    (h.Set_DensityMatrix env).D0 i j = mat2 1 0 0 0 i j := by
  obtain ⟨hy, hx⟩ := eigen_diag12 h.F0 _ _ hF hsol
  have hC : ∀ a, a < 2 → (h.Set_DensityMatrix env).C0 a 0 = env.eigenvectors h.F0 a 0 := by
    intro a ha
    show matMul env.NUM_ORB h.SOM (env.eigenvectors h.F0) a 0 = _
    rw [hN]
    simp only [matMul, sum_range_succ, sum_range_zero, zero_add]
    interval_cases a
    · rw [hSOM 0 0 (by decide) (by decide), hSOM 0 1 (by decide) (by decide)]
      simp [mat2]
    · rw [hSOM 1 0 (by decide) (by decide), hSOM 1 1 (by decide) (by decide)]
      simp [mat2]
  rw [Set_DensityMatrix_D0]
  have hi2 : i < env.NUM_ORB := by rw [hN]; exact hi
  have hj2 : j < env.NUM_ORB := by rw [hN]; exact hj
  simp only [hi2, hj2, and_self, if_true, hO, sum_range_succ, sum_range_zero, zero_add]
  rw [hC i hi, hC j hj]
  interval_cases i <;> interval_cases j <;> simp [mat2, hy, hx]

theorem scenario_energy {R : Type} [LinearOrderedField R] (env : Env R) (h : HartreeFock R)
    (hN : env.NUM_ORB = 2)
    (hH : ∀ i j, i < 2 → j < 2 → h.Hcore i j = mat2 1 0 0 2 i j)
    (hF : ∀ i j, i < 2 → j < 2 → h.F0 i j = mat2 1 0 0 2 i j)
    (hD : ∀ i j, i < 2 → j < 2 → h.D0 i j = mat2 1 0 0 0 i j) :
    (h.Set_Energy env).etot = 2 + h.enuc := by
  show (h.Set_Energy env).eelec + h.enuc = _
  rw [Set_Energy_eelec, hN]
  simp only [sum_range_succ, sum_range_zero, zero_add,
    hH 0 0 (by decide) (by decide), hH 0 1 (by decide) (by decide),
    hH 1 0 (by decide) (by decide), hH 1 1 (by decide) (by decide),
    hF 0 0 (by decide) (by decide), hF 0 1 (by decide) (by decide),
    hF 1 0 (by decide) (by decide), hF 1 1 (by decide) (by decide),
    hD 0 0 (by decide) (by decide), hD 0 1 (by decide) (by decide),
    hD 1 0 (by decide) (by decide), hD 1 1 (by decide) (by decide)]
  simp [mat2]
  norm_num

theorem scenario_Fock {R : Type} [LinearOrderedField R] (env : Env R) (h : HartreeFock R)
    (hN : env.NUM_ORB = 2)
    (hH : ∀ i j, i < 2 → j < 2 → h.Hcore i j = mat2 1 0 0 2 i j)
    (hT : ∀ a, a < 6 → h.TEI a = 0)
    (i j : Nat) (hi : i < 2) (hj : j < 2) :
    (h.Set_Fock env).F0 i j = mat2 1 0 0 2 i j := by
  rw [Set_Fock_entry]
  have hi2 : i < env.NUM_ORB := by rw [hN]; exact hi
  have hj2 : j < env.NUM_ORB := by rw [hN]; exact hj
  simp only [hi2, hj2, and_self, if_true, hN]
  rw [hH i j hi hj]
  have hzero : ∑ k in range 2, ∑ l in range 2,
      h.D0 k l * (2 * h.TEI (INDEX (INDEX i j) (INDEX k l))
        - h.TEI (INDEX (INDEX i k) (INDEX j l))) = 0 := by
    refine sum_eq_zero (fun k hk => sum_eq_zero (fun l hl => ?_))
    have hk2 := mem_range.1 hk
    have hl2 := mem_range.1 hl
    have h1 : INDEX (INDEX i j) (INDEX k l) < 6 := N8_address_lt 2 i j k l hi hj hk2 hl2
    have h2 : INDEX (INDEX i k) (INDEX j l) < 6 := N8_address_lt 2 i k j l hi hk2 hj hl2
    rw [hT _ h1, hT _ h2]
    simp
  rw [hzero, add_zero]
  simp only [hi, hj, and_self, if_true]

/-- The loop test only writes `delE` and `rmsD`. -/
theorem Iterate_test_fields {R : Type} [LinearOrderedField R] (env : Env R)
    (h : HartreeFock R) :
    (h.Iterate_test env).2.D0 = h.D0 ∧ (h.Iterate_test env).2.etot = h.etot ∧
    (h.Iterate_test env).2.tol_e = h.tol_e ∧ (h.Iterate_test env).2.tol_dens = h.tol_dens ∧
    (h.Iterate_test env).2.prev_etot = h.prev_etot ∧
    (h.Iterate_test env).2.prev_D0 = h.prev_D0 := by
  unfold HartreeFock.Iterate_test
  by_cases he : h.EConverg.1 = true
  · rw [if_pos he]
    exact ⟨rfl, rfl, rfl, rfl, rfl, rfl⟩
  · rw [if_neg he]
    exact ⟨rfl, rfl, rfl, rfl, rfl, rfl⟩

theorem scenario_test {R : Type} [LinearOrderedField R] (env : Env R) (h : HartreeFock R)
    (hs : Scenario h) : Scenario (h.Iterate_test env).2 := by
  obtain ⟨hH, hT, hSOM, hD, hE, hte, htd⟩ := hs
  obtain ⟨_, _, _, e4, e5, e6, e7⟩ := SameIntegrals_Iterate_test env h
  obtain ⟨f1, f2, f3, f4, _, _⟩ := Iterate_test_fields env h
  unfold Scenario
  rw [e4, e5, e6, e7, f1, f2, f3, f4]
  exact ⟨hH, hT, hSOM, hD, hE, hte, htd⟩

/-- One execution of the loop body in the scenario: the scenario state is reproduced,
and the new density and energy equal the snapshots. -/
theorem scenario_body {R : Type} [LinearOrderedField R] (env : Env R) (h : HartreeFock R)
    (hN : env.NUM_ORB = 2) (hO : env.NUM_OCC = 1)
    (hsolveF : ∀ M : Mat R, (∀ i j, i < 2 → j < 2 → M i j = mat2 1 0 0 2 i j) →
      IsEigensolution 2 M (env.eigenvalues M) (env.eigenvectors M))
    (hs : Scenario h) :
    Scenario (h.Iterate_body env) ∧
    (h.Iterate_body env).prev_etot = h.etot ∧ (h.Iterate_body env).etot = h.etot ∧
    ∀ i j, i < 2 → j < 2 →
      (h.Iterate_body env).prev_D0 i j = h.D0 i j ∧ (h.Iterate_body env).D0 i j = h.D0 i j := by
  obtain ⟨hH, hT, hSOM, hD, hE, hte, htd⟩ := hs
  have hF : ∀ i j, i < 2 → j < 2 →
      ((h.SaveEnergy.SaveDensity env).Set_Fock env).F0 i j = mat2 1 0 0 2 i j :=
    fun i j hi hj => scenario_Fock env (h.SaveEnergy.SaveDensity env) hN hH hT i j hi hj
  have hDnew : ∀ i j, i < 2 → j < 2 →
      (((h.SaveEnergy.SaveDensity env).Set_Fock env).Set_DensityMatrix env).D0 i j
        = mat2 1 0 0 0 i j :=
    fun i j hi hj => scenario_density env ((h.SaveEnergy.SaveDensity env).Set_Fock env)
      hN hO hSOM hF (hsolveF _ hF) i j hi hj
  have hEnew : (h.Iterate_body env).etot = 2 + h.enuc :=
    scenario_energy env (((h.SaveEnergy.SaveDensity env).Set_Fock env).Set_DensityMatrix env)
      hN hH hF hDnew
  refine ⟨⟨hH, hT, hSOM, hDnew, hEnew, hte, htd⟩, rfl, hEnew.trans hE.symm, ?_⟩
  intro i j hi hj
  refine ⟨?_, (hDnew i j hi hj).trans (hD i j hi hj).symm⟩
  show (HartreeFock.SaveDensity env h.SaveEnergy).prev_D0 i j = _
  rw [SaveDensity_prev_D0, hN]
  simp only [hi, hj, and_self, if_true]
  rfl

/-- The flag returned by `DensConverg`. -/
theorem DensConverg_flag {R : Type} [LinearOrderedField R] (env : Env R) (h : HartreeFock R) :
    (h.DensConverg env).1 = true ↔
      env.pow (∑ i in range env.NUM_ORB, ∑ j in range env.NUM_ORB,
        env.pow (h.prev_D0 i j - h.D0 i j) 2) 0.5 < h.tol_dens := by
  have hval : forLoop env.NUM_ORB (fun i val =>
      forLoop env.NUM_ORB (fun j val => val + env.pow (h.prev_D0 i j - h.D0 i j) 2) val) 0
      = ∑ i in range env.NUM_ORB, ∑ j in range env.NUM_ORB,
        env.pow (h.prev_D0 i j - h.D0 i j) 2 := by
    rw [forLoop_sum (fun i => ∑ j in range env.NUM_ORB,
      env.pow (h.prev_D0 i j - h.D0 i j) 2), zero_add]
    intro i a
    exact forLoop_sum (fun j => env.pow (h.prev_D0 i j - h.D0 i j) 2) _ (fun j a => rfl) _ a
  unfold HartreeFock.DensConverg
  simp only [hval, decide_eq_true_eq]

/-- Both convergence tests succeed on a scenario state whose density and energy equal
their snapshots. -/
theorem scenario_converged {R : Type} [LinearOrderedField R] (env : Env R) (h : HartreeFock R)
    (hN : env.NUM_ORB = 2) (hp2 : env.pow 0 2 = 0) (hp3 : env.pow 0 0.5 = 0)
    (hs : Scenario h) (hE : h.prev_etot = h.etot)
    (hD : ∀ i j, i < 2 → j < 2 → h.prev_D0 i j = h.D0 i j) :
    h.EConverg.1 = true ∧ (h.DensConverg env).1 = true := by
  obtain ⟨_, _, _, _, _, hte, htd⟩ := hs
  constructor
  · rw [(EConverg_signed h).1, hE, sub_self]
    exact hte
  · rw [DensConverg_flag, hN]
    have hz : ∑ i in range 2, ∑ j in range 2, env.pow (h.prev_D0 i j - h.D0 i j) 2 = 0 := by
      refine sum_eq_zero (fun i hi => sum_eq_zero (fun j hj => ?_))
      rw [hD i j (mem_range.1 hi) (mem_range.1 hj), sub_self, hp2]
    rw [hz, hp3]
    exact htd

theorem Iterate_from_stop {R : Type} [LinearOrderedField R] (env : Env R) (fuel it : Nat)
    (h : HartreeFock R) (ht : (h.Iterate_test env).1 = true) :
    HartreeFock.Iterate_from env (fuel + 1) it h = some (it, (h.Iterate_test env).2) := by
  simp [HartreeFock.Iterate_from, ht]

theorem Iterate_from_continue {R : Type} [LinearOrderedField R] (env : Env R) (fuel it : Nat)
    (h : HartreeFock R) (ht : (h.Iterate_test env).1 = false) :
    HartreeFock.Iterate_from env (fuel + 1) it h
      = HartreeFock.Iterate_from env fuel (it + 1)
          ((h.Iterate_test env).2.Iterate_body env) := by
  simp [HartreeFock.Iterate_from, ht]

/-- The object built by the constructor in the scenario. -/
theorem scenario_new {R : Type} [LinearOrderedField R] (env : Env R) (data : Data R)
    (mem : HartreeFock R) (tol_dens tol_e : R)
    (hN : env.NUM_ORB = 2) (hO : env.NUM_OCC = 1)
    (hS : ∀ i j, i < 2 → j < 2 → data.overlap i j = if i = j then 1 else 0)
    (hH : ∀ i j, i < 2 → j < 2 → data.kinetic i j + data.anuc i j = mat2 1 0 0 2 i j)
    (hT : ∀ a, a < 6 → data.eri a = 0)
    (hsolveS : IsEigensolution 2 data.overlap (env.eigenvalues data.overlap)
      (env.eigenvectors data.overlap))
    (hsolveF : ∀ M : Mat R, (∀ i j, i < 2 → j < 2 → M i j = mat2 1 0 0 2 i j) →
      IsEigensolution 2 M (env.eigenvalues M) (env.eigenvectors M))
    (hp1 : env.pow 1 (-0.5) = 1) (htd : 0 < tol_dens) (hte : 0 < tol_e) :
    ∃ h0 : HartreeFock R, HartreeFock.new env data mem tol_dens tol_e = Except.ok h0 ∧
      Scenario h0 ∧ h0.enuc = data.enuc := by
  obtain ⟨h1, hok, hrest, hSOM⟩ := scenario_SOM env
    { mem with enuc := data.enuc, S := data.overlap, T := data.kinetic, V := data.anuc,
               TEI := data.eri, tol_dens := tol_dens, tol_e := tol_e,
               Hcore := matAdd data.kinetic data.anuc } hN hS hsolveS hp1
  have hHc : h1.Hcore = matAdd data.kinetic data.anuc := congrArg HartreeFock.Hcore hrest
  have hTc : h1.TEI = data.eri := congrArg HartreeFock.TEI hrest
  have hec : h1.enuc = data.enuc := congrArg HartreeFock.enuc hrest
  have htec : h1.tol_e = tol_e := congrArg HartreeFock.tol_e hrest
  have htdc : h1.tol_dens = tol_dens := congrArg HartreeFock.tol_dens hrest
  have hH1 : ∀ i j, i < 2 → j < 2 → h1.Hcore i j = mat2 1 0 0 2 i j := by
    intro i j hi hj
    rw [hHc]
    exact hH i j hi hj
  have hT1 : ∀ a, a < 6 → h1.TEI a = 0 := by
    intro a ha
    rw [hTc]
    exact hT a ha
  have hF : ∀ i j, i < 2 → j < 2 → (h1.Set_InitialFock env).F0 i j = mat2 1 0 0 2 i j :=
    fun i j hi hj => scenario_InitialFock env h1 hN hH1 hSOM i j hi hj
  have hD : ∀ i j, i < 2 → j < 2 →
      ((h1.Set_InitialFock env).Set_DensityMatrix env).D0 i j = mat2 1 0 0 0 i j :=
    fun i j hi hj => scenario_density env (h1.Set_InitialFock env) hN hO hSOM hF
      (hsolveF _ hF) i j hi hj
  have hE : (((h1.Set_InitialFock env).Set_DensityMatrix env).Set_Energy env).etot
      = 2 + h1.enuc :=
    scenario_energy env ((h1.Set_InitialFock env).Set_DensityMatrix env) hN hH1 hF hD
  refine ⟨_, new_eq env data mem tol_dens tol_e h1 hok, ⟨hH1, hT1, hSOM, hD, hE, ?_, ?_⟩, hec⟩
  · show 0 < h1.tol_e
    rw [htec]
    exact hte
  · show 0 < h1.tol_dens
    rw [htdc]
    exact htd

/-- Whatever state the loop returns in the scenario is a scenario state with the
nuclear repulsion energy it started with. -/
theorem scenario_Iterate_from {R : Type} [LinearOrderedField R] (env : Env R)
    (hN : env.NUM_ORB = 2) (hO : env.NUM_OCC = 1)
    (hsolveF : ∀ M : Mat R, (∀ i j, i < 2 → j < 2 → M i j = mat2 1 0 0 2 i j) →
      IsEigensolution 2 M (env.eigenvalues M) (env.eigenvectors M))
    (fuel : Nat) :
    ∀ (it : Nat) (h : HartreeFock R) (r : Nat × HartreeFock R), Scenario h →
      HartreeFock.Iterate_from env fuel it h = some r → Scenario r.2 ∧ r.2.enuc = h.enuc := by
  induction fuel with
  | zero =>
    intro it h r _ hr
    simp [HartreeFock.Iterate_from] at hr
  | succ fuel ih =>
    intro it h r hs hr
    by_cases ht : (h.Iterate_test env).1 = true
    · rw [Iterate_from_stop env fuel it h ht] at hr
      have hr2 : r = (it, (h.Iterate_test env).2) := (Option.some.inj hr).symm
      rw [hr2]
      exact ⟨scenario_test env h hs, (SameIntegrals_Iterate_test env h).2.2.2.2.2.2⟩
    · have htf : (h.Iterate_test env).1 = false := by simpa using ht
      rw [Iterate_from_continue env fuel it h htf] at hr
      obtain ⟨h1, h2⟩ := ih (it + 1) _ r
        (scenario_body env _ hN hO hsolveF (scenario_test env h hs)).1 hr
      have hb : ((h.Iterate_test env).2.Iterate_body env).enuc = (h.Iterate_test env).2.enuc :=
        (SameIntegrals_Iterate_body env (h.Iterate_test env).2).2.2.2.2.2.2
      exact ⟨h1, h2.trans (hb.trans (SameIntegrals_Iterate_test env h).2.2.2.2.2.2)⟩

/-- In the scenario the loop stops after at most one execution of its body. -/
theorem scenario_Iterate_two {R : Type} [LinearOrderedField R] (env : Env R)
    (hN : env.NUM_ORB = 2) (hO : env.NUM_OCC = 1)
    (hsolveF : ∀ M : Mat R, (∀ i j, i < 2 → j < 2 → M i j = mat2 1 0 0 2 i j) →
      IsEigensolution 2 M (env.eigenvalues M) (env.eigenvectors M))
    (hp2 : env.pow 0 2 = 0) (hp3 : env.pow 0 0.5 = 0)
    (h : HartreeFock R) (hs : Scenario h) :
    ∃ r : Nat × HartreeFock R, h.Iterate env 2 = some r ∧ r.1 ≤ 1 := by
  unfold HartreeFock.Iterate
  by_cases ht : (h.Iterate_test env).1 = true
  · exact ⟨_, Iterate_from_stop env 1 0 h ht, Nat.zero_le 1⟩
  · have htf : (h.Iterate_test env).1 = false := by simpa using ht
    rw [Iterate_from_continue env 1 0 h htf]
    obtain ⟨hsb, hpe, hee, hdd⟩ :=
      scenario_body env _ hN hO hsolveF (scenario_test env h hs)
    have hconv := scenario_converged env _ hN hp2 hp3 hsb (hpe.trans hee.symm)
      (fun i j hi hj => ((hdd i j hi hj).1).trans ((hdd i j hi hj).2).symm)
    have ht2 : (HartreeFock.Iterate_test env
        ((h.Iterate_test env).2.Iterate_body env)).1 = true := by
      rw [Iterate_test_flag, hconv.1, hconv.2]
      rfl
    exact ⟨_, Iterate_from_stop env 0 (0 + 1) _ ht2, Nat.le_refl 1⟩

/-- The sample solver solves every 2 × 2 matrix that is diagonal with ascending
diagonal. -/
theorem sampleEnv_solution (M : Mat ℚ) (h01 : M 0 1 = 0) (h10 : M 1 0 = 0)
    (hasc : M 0 0 ≤ M 1 1) :
    IsEigensolution 2 M (sampleEnv.eigenvalues M) (sampleEnv.eigenvectors M) := by
  refine ⟨?_, ?_, ?_⟩
  · intro i m hi hm
    show ∑ k in range 2, M i k * (if k = m then (1 : ℚ) else 0) = M m m * (if i = m then 1 else 0)
    interval_cases i <;> interval_cases m <;> simp [sum_range_succ, h01, h10]
  · intro m p hm hp
    show ∑ k in range 2, (if k = m then (1 : ℚ) else 0) * (if k = p then 1 else 0) = _
    interval_cases m <;> interval_cases p <;> simp [sum_range_succ]
  · intro m p hmp hp
    show M m m ≤ M p p
    interval_cases p
    · have hm0 : m = 0 := by omega
      subst hm0
      exact le_refl _
    · have hm1 : m = 0 ∨ m = 1 := by omega
      rcases hm1 with hm1 | hm1
      · subst hm1
        exact hasc
      · subst hm1
        exact le_refl _

theorem sampleEnv_solves_overlap :
    IsEigensolution 2 scenarioData.overlap (sampleEnv.eigenvalues scenarioData.overlap)
      (sampleEnv.eigenvectors scenarioData.overlap) :=
  sampleEnv_solution _ (by simp [scenarioData, mat2]) (by simp [scenarioData, mat2])
    (by simp [scenarioData, mat2])

theorem sampleEnv_solves_diag12 (M : Mat ℚ)
    (hM : ∀ i j, i < 2 → j < 2 → M i j = mat2 1 0 0 2 i j) :
    IsEigensolution 2 M (sampleEnv.eigenvalues M) (sampleEnv.eigenvectors M) := by
  apply sampleEnv_solution
  · rw [hM 0 1 (by decide) (by decide)]
    simp [mat2]
  · rw [hM 1 0 (by decide) (by decide)]
    simp [mat2]
  · rw [hM 0 0 (by decide) (by decide), hM 1 1 (by decide) (by decide)]
    simp [mat2]

theorem scenarioData_overlap (i j : Nat) (hi : i < 2) (hj : j < 2) :
    scenarioData.overlap i j = if i = j then 1 else 0 := by
  interval_cases i <;> interval_cases j <;> simp [scenarioData, mat2]

theorem scenarioData_Hcore (i j : Nat) (hi : i < 2) (hj : j < 2) :
    scenarioData.kinetic i j + scenarioData.anuc i j = mat2 1 0 0 2 i j := by
  interval_cases i <;> interval_cases j <;> norm_num [scenarioData, mat2]

theorem samplePow_values :
    sampleEnv.pow 1 (-0.5) = 1 ∧ sampleEnv.pow 0 2 = 0 ∧ sampleEnv.pow 0 0.5 = 0 := by
  refine ⟨?_, ?_, ?_⟩ <;> norm_num [sampleEnv, sampleEnvOf, samplePow]

/-- The total energy of a scenario state, written with the occupied diagonal of
`Hcore`. -/
theorem scenario_etot {R : Type} [LinearOrderedField R] (env : Env R) (h : HartreeFock R)
    (hO : env.NUM_OCC = 1) (hs : Scenario h) :
    h.etot = 2 * (∑ m in range env.NUM_OCC, h.Hcore m m) + h.enuc ∧
    (∑ m in range env.NUM_OCC, h.Hcore m m) = 1 := by
  obtain ⟨hH, _, _, _, hE, _, _⟩ := hs
  have hsum : (∑ m in range env.NUM_OCC, h.Hcore m m) = 1 := by
    rw [hO, sum_range_succ, sum_range_zero, zero_add, hH 0 0 (by decide) (by decide)]
    simp [mat2]
  refine ⟨?_, hsum⟩
  rw [hsum, hE, mul_one]

/-- C13: in the 2 × 2 scenario (`N = 2`, one occupied orbital, `S` the identity,
`Hcore = T + V = diag(1,2)`, zero two-electron integrals, a solver returning ascending
eigenvalues with orthonormal eigenvectors, `pow` exact at `pow(1,-0.5)`, `pow(0,2)`,
`pow(0,0.5)`, positive tolerances) the constructor returns an object `h0`; one
execution of the loop body on `h0` leaves `etot` and the entries of `D0` equal to
their snapshots, `EConverg` and `DensConverg` then both return true, and `Iterate`
stops after at most one execution of its body. -/
theorem C13_scenario_single_iteration {R : Type} [LinearOrderedField R] (env : Env R)
    (data : Data R) (mem : HartreeFock R) (tol_dens tol_e : R)
    (hN : env.NUM_ORB = 2) (hO : env.NUM_OCC = 1)
    (hS : ∀ i j, i < 2 → j < 2 → data.overlap i j = if i = j then 1 else 0)
    (hH : ∀ i j, i < 2 → j < 2 → data.kinetic i j + data.anuc i j = mat2 1 0 0 2 i j)
    (hT : ∀ a, a < 6 → data.eri a = 0)
    (hsolveS : IsEigensolution 2 data.overlap (env.eigenvalues data.overlap)
      (env.eigenvectors data.overlap))
    (hsolveF : ∀ M : Mat R, (∀ i j, i < 2 → j < 2 → M i j = mat2 1 0 0 2 i j) →
      IsEigensolution 2 M (env.eigenvalues M) (env.eigenvectors M))
    (hp1 : env.pow 1 (-0.5) = 1) (hp2 : env.pow 0 2 = 0) (hp3 : env.pow 0 0.5 = 0)
    (htd : 0 < tol_dens) (hte : 0 < tol_e) :
    ∃ h0 : HartreeFock R, HartreeFock.new env data mem tol_dens tol_e = Except.ok h0 ∧
      (h0.Iterate_body env).etot = (h0.Iterate_body env).prev_etot ∧
      (∀ i j, i < 2 → j < 2 →
        (h0.Iterate_body env).D0 i j = (h0.Iterate_body env).prev_D0 i j) ∧
      (h0.Iterate_body env).EConverg.1 = true ∧
      ((h0.Iterate_body env).DensConverg env).1 = true ∧
      ∃ r : Nat × HartreeFock R, h0.Iterate env 2 = some r ∧ r.1 ≤ 1 := by
  obtain ⟨h0, hnew, hs, _⟩ := scenario_new env data mem tol_dens tol_e hN hO hS hH hT
    hsolveS hsolveF hp1 htd hte
  obtain ⟨hsb, hpe, hee, hdd⟩ := scenario_body env h0 hN hO hsolveF hs
  have hconv := scenario_converged env _ hN hp2 hp3 hsb (hpe.trans hee.symm)
    (fun i j hi hj => ((hdd i j hi hj).1).trans ((hdd i j hi hj).2).symm)
  exact ⟨h0, hnew, hee.trans hpe.symm,
    fun i j hi hj => ((hdd i j hi hj).2).trans ((hdd i j hi hj).1).symm,
    hconv.1, hconv.2, scenario_Iterate_two env hN hO hsolveF hp2 hp3 h0 hs⟩

/-- Witness of C13: the scenario over `ℚ` with the sample solver. -/
theorem C13_scenario_single_iteration_witness :
    ∃ h0 : HartreeFock ℚ,
      HartreeFock.new sampleEnv scenarioData sampleHF (1 / 1000) (1 / 1000000)
        = Except.ok h0 ∧
      (h0.Iterate_body sampleEnv).EConverg.1 = true ∧
      ((h0.Iterate_body sampleEnv).DensConverg sampleEnv).1 = true := by
  obtain ⟨h0, hnew, _, _, he, hd, _⟩ :=
    C13_scenario_single_iteration sampleEnv scenarioData sampleHF (1 / 1000) (1 / 1000000)
      rfl rfl scenarioData_overlap scenarioData_Hcore (fun _ _ => rfl)
      sampleEnv_solves_overlap sampleEnv_solves_diag12
      samplePow_values.1 samplePow_values.2.1 samplePow_values.2.2
      (by norm_num) (by norm_num)
  exact ⟨h0, hnew, he, hd⟩

/-- C14, as stated, fails in the scenario over `ℚ` with `enuc = 3`: the converged total
energy is `5 = 2*1 + 3`, while the occupied diagonal of `Hcore` plus `enuc` is
`1 + 3 = 4`. -/
theorem C14_energy_counterexample :
    ∃ (h0 : HartreeFock ℚ) (r : Nat × HartreeFock ℚ),
      HartreeFock.new sampleEnv scenarioData sampleHF (1 / 1000) (1 / 1000000)
        = Except.ok h0 ∧
      h0.Iterate sampleEnv 2 = some r ∧
      r.2.etot = 5 ∧
      (∑ m in range sampleEnv.NUM_OCC, r.2.Hcore m m) + r.2.enuc = 4 ∧
      r.2.etot ≠ (∑ m in range sampleEnv.NUM_OCC, r.2.Hcore m m) + r.2.enuc := by
  obtain ⟨h0, hnew, hs, henuc⟩ :=
    scenario_new sampleEnv scenarioData sampleHF (1 / 1000) (1 / 1000000)
      rfl rfl scenarioData_overlap scenarioData_Hcore (fun _ _ => rfl)
      sampleEnv_solves_overlap sampleEnv_solves_diag12 samplePow_values.1
      (by norm_num) (by norm_num)
  obtain ⟨r, hr, _⟩ := scenario_Iterate_two sampleEnv rfl rfl sampleEnv_solves_diag12
    samplePow_values.2.1 samplePow_values.2.2 h0 hs
  obtain ⟨hsr, henr⟩ := scenario_Iterate_from sampleEnv rfl rfl sampleEnv_solves_diag12
    2 0 h0 r hs hr
  obtain ⟨het, hsum⟩ := scenario_etot sampleEnv r.2 rfl hsr
  have hen : r.2.enuc = 3 := henr.trans henuc
  have h5 : r.2.etot = 5 := by
    rw [het, hsum, hen]
    norm_num
  have h4 : (∑ m in range sampleEnv.NUM_OCC, r.2.Hcore m m) + r.2.enuc = 4 := by
    rw [hsum, hen]
    norm_num
  refine ⟨h0, r, hnew, hr, h5, h4, ?_⟩
  rw [h5, h4]
  norm_num

/-- C14, amended: in the 2 × 2 scenario the constructed and the converged total energy
equal twice the sum of `Hcore(m,m)` over the occupied orbitals `m < N_occ`, plus
`enuc`: the loop returns, and every state it returns has
`etot = 2 * Σ_{m<N_occ} Hcore(m,m) + enuc` with the loaded `enuc`. -/
theorem C14_scenario_energy_doubly_occupied {R : Type} [LinearOrderedField R] (env : Env R)
    (data : Data R) (mem : HartreeFock R) (tol_dens tol_e : R)
    (hN : env.NUM_ORB = 2) (hO : env.NUM_OCC = 1)
    (hS : ∀ i j, i < 2 → j < 2 → data.overlap i j = if i = j then 1 else 0)
    (hH : ∀ i j, i < 2 → j < 2 → data.kinetic i j + data.anuc i j = mat2 1 0 0 2 i j)
    (hT : ∀ a, a < 6 → data.eri a = 0)
    (hsolveS : IsEigensolution 2 data.overlap (env.eigenvalues data.overlap)
      (env.eigenvectors data.overlap))
    (hsolveF : ∀ M : Mat R, (∀ i j, i < 2 → j < 2 → M i j = mat2 1 0 0 2 i j) →
      IsEigensolution 2 M (env.eigenvalues M) (env.eigenvectors M))
    (hp1 : env.pow 1 (-0.5) = 1) (hp2 : env.pow 0 2 = 0) (hp3 : env.pow 0 0.5 = 0)
    (htd : 0 < tol_dens) (hte : 0 < tol_e) :
    ∃ h0 : HartreeFock R, HartreeFock.new env data mem tol_dens tol_e = Except.ok h0 ∧
      h0.etot = 2 * (∑ m in range env.NUM_OCC, h0.Hcore m m) + h0.enuc ∧
      (∃ r : Nat × HartreeFock R, h0.Iterate env 2 = some r) ∧
      ∀ (fuel : Nat) (r : Nat × HartreeFock R), h0.Iterate env fuel = some r →
        r.2.etot = 2 * (∑ m in range env.NUM_OCC, r.2.Hcore m m) + r.2.enuc ∧
        r.2.enuc = data.enuc := by
  obtain ⟨h0, hnew, hs, henuc⟩ := scenario_new env data mem tol_dens tol_e hN hO hS hH hT
    hsolveS hsolveF hp1 htd hte
  obtain ⟨r2, hr2, _⟩ := scenario_Iterate_two env hN hO hsolveF hp2 hp3 h0 hs
  refine ⟨h0, hnew, (scenario_etot env h0 hO hs).1, ⟨r2, hr2⟩, ?_⟩
  intro fuel r hr
  obtain ⟨hsr, henr⟩ := scenario_Iterate_from env hN hO hsolveF fuel 0 h0 r hs hr
  exact ⟨(scenario_etot env r.2 hO hsr).1, henr.trans henuc⟩

/-- Witness of C14 (amended): the scenario over `ℚ` with `enuc = 3` is constructed with
total energy `2 * 1 + 3`. -/
theorem C14_scenario_energy_doubly_occupied_witness :
    ∃ h0 : HartreeFock ℚ,
      HartreeFock.new sampleEnv scenarioData sampleHF (1 / 1000) (1 / 1000000)
        = Except.ok h0 ∧
      h0.etot = 2 * (∑ m in range sampleEnv.NUM_OCC, h0.Hcore m m) + h0.enuc ∧
      ∃ r : Nat × HartreeFock ℚ, h0.Iterate sampleEnv 2 = some r := by
  obtain ⟨h0, hnew, he, hr, _⟩ :=
    C14_scenario_energy_doubly_occupied sampleEnv scenarioData sampleHF (1 / 1000)
      (1 / 1000000)
      rfl rfl scenarioData_overlap scenarioData_Hcore (fun _ _ => rfl)
      sampleEnv_solves_overlap sampleEnv_solves_diag12
      samplePow_values.1 samplePow_values.2.1 samplePow_values.2.2
      (by norm_num) (by norm_num)
  exact ⟨h0, hnew, he, hr⟩
